import Mathlib

/-!
A shallow embedding in Lean 4 of the geometry core of the AVFlowView wiring
viewer: the dynamic port-side resolver and the edge-direction correction of
`src/lib/elkMapper.ts`, the neighborhood filter of `src/lib/focusMode.ts`,
and the parallel-edge separator and A* orthogonal router of
`src/lib/orthogonalRouter.ts`, together with theorems checking the
documented behaviour of each component.

JavaScript numbers are idealised as exact rationals (`ℚ`) where only field
operations and comparisons occur, and as reals (`ℝ`) where a square root is
taken; all inputs exercised stay well inside the exactly-representable
range, so no rounding behaviour is lost by the idealisation.
-/

namespace ElkMapper

/-- An edge of the input graph as consumed by `src/lib/elkMapper.ts`:
source/target node ids with optional source/target port keys. -/
structure EdgeRec where
  id : String
  source : String
  target : String
  sourcePortKey : Option String
  targetPortKey : Option String
deriving DecidableEq

/-- An absolute node position produced by the layout solver (the `x`/`y`
fields of a laid-out ELK node, read by `getPortSideDynamic`). -/
structure Pos where
  x : ℚ
  y : ℚ
deriving DecidableEq

/-- The filter at the top of `getPortSideDynamic`: the edges that reference
`(nodeId, portKey)` either as source + source port or as target + target
port. -/
def edgesForPort (edges : List EdgeRec) (nodeId portKey : String) : List EdgeRec :=
  edges.filter fun e =>
    (e.source == nodeId && e.sourcePortKey == some portKey) ||
    (e.target == nodeId && e.targetPortKey == some portKey)

/-- Signed horizontal contribution of one qualifying edge in the `isHorizontal`
branch of `getPortSideDynamic`: `dx` for a source port, `-dx` for a target
port, and `0` when the other endpoint has no layout position. -/
def dxContribution (nodePos : String → Option Pos) (nodeId : String) (node : Pos)
    (e : EdgeRec) : ℚ :=
  let isSource := e.source == nodeId
  let otherId := if isSource then e.target else e.source
  match nodePos otherId with
  | some other => if isSource then other.x - node.x else -(other.x - node.x)
  | none => 0

/-- Vertical contribution of one qualifying edge in the top-bottom branch of
`getPortSideDynamic`: always `other.y - node.y`, with no sign inversion for
target ports, and `0` when the other endpoint has no layout position. -/
def dyContribution (nodePos : String → Option Pos) (nodeId : String) (node : Pos)
    (e : EdgeRec) : ℚ :=
  let otherId := if e.source == nodeId then e.target else e.source
  match nodePos otherId with
  | some other => other.y - node.y
  | none => 0

/-- Shallow embedding of `getPortSideDynamic` (`src/lib/elkMapper.ts`):
resolves the side of a bidirectional port from the layout positions of the
other endpoints of its qualifying edges. `nodePos` is the map of laid-out
node positions collected from the ELK result. -/
def getPortSideDynamic (edges : List EdgeRec) (nodePos : String → Option Pos)
    (nodeId portKey : String) (isHorizontal : Bool) : String :=
  let efp := edgesForPort edges nodeId portKey
  match nodePos nodeId with
  | none => if isHorizontal then "EAST" else "SOUTH"
  | some node =>
    if efp.length = 0 then (if isHorizontal then "EAST" else "SOUTH")
    else if isHorizontal then
      let totalDx := efp.foldl (fun acc e => acc + dxContribution nodePos nodeId node e) 0
      if totalDx > 0 then "EAST" else "WEST"
    else
      let totalDy := efp.foldl (fun acc e => acc + dyContribution nodePos nodeId node e) 0
      if totalDy > 0 then "NORTH" else "SOUTH"

theorem foldl_add_eq_sum (f : EdgeRec → ℚ) (l : List EdgeRec) (a : ℚ) :
    l.foldl (fun acc e => acc + f e) a = a + (l.map f).sum := by
  induction l generalizing a with
  | nil => simp
  | cons x xs ih => simp [List.foldl_cons, ih, add_assoc]

/-- Modelled from the spec (for comparison with the code only): the vertical
rule claimed in C1 — each qualifying edge contributes `other.y - this.y`
when this node is the edge's source and `-(other.y - this.y)` when it is
the target, and the resolved side is `SOUTH` when the sum is strictly
positive and `NORTH` otherwise. -/
def claimedVerticalSide (edges : List EdgeRec) (nodePos : String → Option Pos)
    (nodeId portKey : String) : String :=
  let efp := edgesForPort edges nodeId portKey
  let s : ℚ := (efp.map fun e =>
    let isSource := e.source == nodeId
    let otherId := if isSource then e.target else e.source
    match nodePos nodeId, nodePos otherId with
    | some node, some other =>
        if isSource then other.y - node.y else -(other.y - node.y)
    | _, _ => (0 : ℚ)).sum
  if s > 0 then "SOUTH" else "NORTH"

/-- Concrete layout for the C1 counterexample: node `A` at `(0, 0)` and node
`B` at `(0, 100)` under a top-bottom layout. -/
def cexPos : String → Option Pos := fun i =>
  if i = "A" then some ⟨0, 0⟩ else if i = "B" then some ⟨0, 100⟩ else none

/-- Single edge with `A` as source via port `p` and `B` as target, used as
the C1 counterexample input. -/
def cexEdges : List EdgeRec := [⟨"e1", "A", "B", some "p", none⟩]

/-- C1 counterexample: under vertical layout with a single qualifying edge
from `A` (source, port `p`, at `(0,0)`) to `B` (at `(0,100)`), the claimed
rule (sign-inverted target contributions, `SOUTH` on positive sum) yields
`SOUTH`, but `getPortSideDynamic` yields `NORTH`: the code neither inverts
the target contribution nor returns `SOUTH` on a positive sum. -/
theorem portSide_vertical_claim_cex :
    claimedVerticalSide cexEdges cexPos "A" "p" = "SOUTH" ∧
    getPortSideDynamic cexEdges cexPos "A" "p" false = "NORTH" := by
  constructor
  · simp [claimedVerticalSide, edgesForPort, cexEdges, cexPos]
  · simp [getPortSideDynamic, edgesForPort, dyContribution, cexEdges, cexPos]

/-- C1 (amended): under vertical (top-bottom) layout, for every bidirectional
port with a laid-out node and at least one qualifying edge, the resolver
sums `other.y - this.y` over the qualifying edges with no sign inversion
for target-port edges, and returns `NORTH` if the sum is strictly positive
and `SOUTH` otherwise. -/
theorem portSide_vertical_amended (edges : List EdgeRec)
    (nodePos : String → Option Pos) (nodeId portKey : String) (node : Pos)
    (hnode : nodePos nodeId = some node)
    (hne : edgesForPort edges nodeId portKey ≠ []) :
    getPortSideDynamic edges nodePos nodeId portKey false =
      if 0 < ((edgesForPort edges nodeId portKey).map
          (dyContribution nodePos nodeId node)).sum
      then "NORTH" else "SOUTH" := by
  have hlen : ¬ (edgesForPort edges nodeId portKey).length = 0 := by
    simpa [List.length_eq_zero] using hne
  simp only [getPortSideDynamic, hnode, hlen, if_false, Bool.false_eq_true,
    foldl_add_eq_sum, zero_add, ite_false]

/-- Witness for the amended C1 theorem at the counterexample input: the
qualifying-edge list is nonempty, the node is laid out, and the resolver
returns `NORTH` as the positive sum dictates. -/
theorem portSide_vertical_amended_witness :
    getPortSideDynamic cexEdges cexPos "A" "p" false = "NORTH" := by
  have h := portSide_vertical_amended cexEdges cexPos "A" "p" ⟨0, 0⟩
    (by simp [cexPos]) (by decide)
  rw [h]
  simp [edgesForPort, dyContribution, cexEdges, cexPos]

/-- C6: a bidirectional port with zero qualifying edges resolves to the
orientation default — `EAST` under horizontal layout and `SOUTH` under
vertical layout — regardless of the layout positions. -/
theorem portSide_default_no_edges (edges : List EdgeRec)
    (nodePos : String → Option Pos) (nodeId portKey : String)
    (isHorizontal : Bool)
    (h : edgesForPort edges nodeId portKey = []) :
    getPortSideDynamic edges nodePos nodeId portKey isHorizontal =
      if isHorizontal then "EAST" else "SOUTH" := by
  cases hm : nodePos nodeId <;> simp [getPortSideDynamic, hm, h]

/-- Witness for C6: a port referenced by no edge at all defaults to `EAST`
horizontally and `SOUTH` vertically. -/
theorem portSide_default_no_edges_witness :
    getPortSideDynamic cexEdges cexPos "A" "q" true = "EAST" ∧
    getPortSideDynamic cexEdges cexPos "A" "q" false = "SOUTH" := by
  exact ⟨portSide_default_no_edges cexEdges cexPos "A" "q" true (by decide),
    portSide_default_no_edges cexEdges cexPos "A" "q" false (by decide)⟩

/-- Concrete layout for the C7 scenarios: node `A` at `(0, 0)` and node `B`
at `(100, 0)` under a left-right layout. -/
def scenarioPos : String → Option Pos := fun i =>
  if i = "A" then some ⟨0, 0⟩ else if i = "B" then some ⟨100, 0⟩ else none

/-- C7: with `A` at `(0,0)` and `B` at `(100,0)` under horizontal layout, a
single edge with `A` as source via port `p` resolves `(A, p)` to `EAST`,
while a single edge with `B` as source and `A` as target via port `p`
resolves `(A, p)` to `WEST` (the target contribution is sign-inverted so
the port faces back toward `B`). -/
theorem portSide_horizontal_scenarios :
    getPortSideDynamic [⟨"e1", "A", "B", some "p", none⟩] scenarioPos
      "A" "p" true = "EAST" ∧
    getPortSideDynamic [⟨"e1", "B", "A", none, some "p"⟩] scenarioPos
      "A" "p" true = "WEST" := by
  constructor <;>
    simp [getPortSideDynamic, edgesForPort, dxContribution, scenarioPos]

/-- C9: for a laid-out bidirectional port with at least one qualifying edge
whose summed contribution is exactly zero, both branches test for a
strictly positive sum, so the resolver deterministically returns `WEST`
under horizontal layout and `SOUTH` under vertical layout. -/
theorem portSide_zero_sum_tiebreak (edges : List EdgeRec)
    (nodePos : String → Option Pos) (nodeId portKey : String) (node : Pos)
    (hnode : nodePos nodeId = some node)
    (hne : edgesForPort edges nodeId portKey ≠ []) :
    (((edgesForPort edges nodeId portKey).map
        (dxContribution nodePos nodeId node)).sum = 0 →
      getPortSideDynamic edges nodePos nodeId portKey true = "WEST") ∧
    (((edgesForPort edges nodeId portKey).map
        (dyContribution nodePos nodeId node)).sum = 0 →
      getPortSideDynamic edges nodePos nodeId portKey false = "SOUTH") := by
  have hlen : ¬ (edgesForPort edges nodeId portKey).length = 0 := by
    simpa [List.length_eq_zero] using hne
  constructor <;> intro hsum <;>
    simp [getPortSideDynamic, hnode, hlen, foldl_add_eq_sum, hsum]

/-- Layout for the C9 witness: `A` at `(0,0)` with neighbors `B` at
`(100,100)` and `C` at `(-100,-100)`, whose contributions cancel exactly. -/
def zeroSumPos : String → Option Pos := fun i =>
  if i = "A" then some ⟨0, 0⟩
  else if i = "B" then some ⟨100, 100⟩
  else if i = "C" then some ⟨-100, -100⟩ else none

/-- Two source edges out of port `p` of `A`, toward `B` and `C`, for the C9
witness. -/
def zeroSumEdges : List EdgeRec :=
  [⟨"e1", "A", "B", some "p", none⟩, ⟨"e2", "A", "C", some "p", none⟩]

/-- Witness for C9: contributions `+100` and `-100` cancel on both axes, and
the resolver returns `WEST` horizontally and `SOUTH` vertically. -/
theorem portSide_zero_sum_tiebreak_witness :
    getPortSideDynamic zeroSumEdges zeroSumPos "A" "p" true = "WEST" ∧
    getPortSideDynamic zeroSumEdges zeroSumPos "A" "p" false = "SOUTH" := by
  have h := portSide_zero_sum_tiebreak zeroSumEdges zeroSumPos "A" "p" ⟨0, 0⟩
    (by simp [zeroSumPos]) (by decide)
  exact ⟨h.1 (by simp [edgesForPort, dxContribution, zeroSumEdges, zeroSumPos]),
    h.2 (by simp [edgesForPort, dyContribution, zeroSumEdges, zeroSumPos])⟩

/-- The field of a device port read by the edge-direction correction in
`mapEdgesToElk`: its alignment string (`In` / `Out` / `Bidirectional`). -/
structure Port where
  alignment : String
deriving DecidableEq

/-- A device node as read by `mapEdgesToElk`: its id and its ordered port
map, embedded as an association list of port key to port. -/
structure NodeRec where
  id : String
  ports : List (String × Port)
deriving DecidableEq

/-- The `nodes.find(n => n.id === e.source)` lookup of `mapEdgesToElk`:
first node with the given id, if any. -/
def findNode (nodes : List NodeRec) (i : String) : Option NodeRec :=
  nodes.find? fun n => n.id == i

/-- The `node?.ports?.[key]` optional-chained port lookup of
`mapEdgesToElk`: `none` whenever the node is missing or the edge carries no
port key. -/
def portOf (n : Option NodeRec) (k : Option String) : Option Port :=
  match n, k with
  | some node, some key => node.ports.lookup key
  | _, _ => none

/-- A mapped ELK edge as produced by `mapEdgesToElk`: singleton source and
target lists plus the formatted port references of its `properties`. -/
structure ElkEdge where
  id : String
  sources : List String
  targets : List String
  sourcePort : Option String
  targetPort : Option String
deriving DecidableEq

/-- The JS template `key ? nodeId.key : undefined` used for the
`properties.sourcePort` / `properties.targetPort` fields, with string
truthiness (an empty key formats to `undefined`). -/
def formatPortRef (nodeId : String) : Option String → Option String
  | some k => if k = "" then none else some (nodeId ++ "." ++ k)
  | none => none

/-- Shallow embedding of the per-edge body of `mapEdgesToElk`
(`src/lib/elkMapper.ts`): detects an inverted edge (source port aligned
`In` and target port aligned `Out`) and swaps endpoints and port keys for
it before handing the edge to the layout solver. -/
def mapEdgeToElk (nodes : List NodeRec) (e : EdgeRec) : ElkEdge :=
  let sourcePort := portOf (findNode nodes e.source) e.sourcePortKey
  let targetPort := portOf (findNode nodes e.target) e.targetPortKey
  let isInverted := sourcePort.map Port.alignment == some "In" &&
    targetPort.map Port.alignment == some "Out"
  let actualSource := if isInverted then e.target else e.source
  let actualTarget := if isInverted then e.source else e.target
  let actualSourcePortKey := if isInverted then e.targetPortKey else e.sourcePortKey
  let actualTargetPortKey := if isInverted then e.sourcePortKey else e.targetPortKey
  { id := e.id
    sources := [actualSource]
    targets := [actualTarget]
    sourcePort := formatPortRef actualSource actualSourcePortKey
    targetPort := formatPortRef actualTarget actualTargetPortKey }

/-- Shallow embedding of `mapEdgesToElk` (`src/lib/elkMapper.ts`). -/
def mapEdgesToElk (edges : List EdgeRec) (nodes : List NodeRec) : List ElkEdge :=
  edges.map (mapEdgeToElk nodes)

/-- C10: an edge whose looked-up source port is aligned `In` and whose
looked-up target port is aligned `Out` is passed to the layout solver with
source and target (and source/target port keys) swapped; every other edge
— including edges whose nodes or port keys are missing — keeps its
original direction. -/
theorem mapEdgesToElk_inversion (nodes : List NodeRec) (e : EdgeRec) :
    (((portOf (findNode nodes e.source) e.sourcePortKey).map Port.alignment
        = some "In" ∧
      (portOf (findNode nodes e.target) e.targetPortKey).map Port.alignment
        = some "Out") →
      (mapEdgeToElk nodes e).sources = [e.target] ∧
      (mapEdgeToElk nodes e).targets = [e.source] ∧
      (mapEdgeToElk nodes e).sourcePort = formatPortRef e.target e.targetPortKey ∧
      (mapEdgeToElk nodes e).targetPort = formatPortRef e.source e.sourcePortKey) ∧
    (¬ ((portOf (findNode nodes e.source) e.sourcePortKey).map Port.alignment
        = some "In" ∧
      (portOf (findNode nodes e.target) e.targetPortKey).map Port.alignment
        = some "Out") →
      (mapEdgeToElk nodes e).sources = [e.source] ∧
      (mapEdgeToElk nodes e).targets = [e.target] ∧
      (mapEdgeToElk nodes e).sourcePort = formatPortRef e.source e.sourcePortKey ∧
      (mapEdgeToElk nodes e).targetPort = formatPortRef e.target e.targetPortKey) := by
  constructor
  · rintro ⟨h1, h2⟩
    simp [mapEdgeToElk, h1, h2]
  · intro h
    have hb : ((portOf (findNode nodes e.source) e.sourcePortKey).map Port.alignment
          == some "In" &&
        (portOf (findNode nodes e.target) e.targetPortKey).map Port.alignment
          == some "Out") = false := by
      rcases Decidable.em ((portOf (findNode nodes e.source) e.sourcePortKey).map
          Port.alignment = some "In") with h1 | h1
      · rcases Decidable.em ((portOf (findNode nodes e.target) e.targetPortKey).map
            Port.alignment = some "Out") with h2 | h2
        · exact absurd ⟨h1, h2⟩ h
        · simp [h2]
      · simp [h1]
    simp [mapEdgeToElk, hb]

/-- Node list for the C10 witness: node `A` with an `In` port `p`, node `B`
with an `Out` port `q`. -/
def wNodes : List NodeRec := [⟨"A", [("p", ⟨"In"⟩)]⟩, ⟨"B", [("q", ⟨"Out"⟩)]⟩]

/-- C10 witness edge that the mapper must invert: it runs from the `In`
port `p` of `A` to the `Out` port `q` of `B`. -/
def wEdgeInv : EdgeRec := ⟨"e1", "A", "B", some "p", some "q"⟩

/-- C10 witness edge the mapper must keep as-is: its target port key is
missing from `B`. -/
def wEdgeStd : EdgeRec := ⟨"e2", "A", "B", some "p", some "p"⟩

/-- Witness for C10: the `In -> Out` edge comes out swapped and the edge
with the missing target port comes out in its original direction. -/
theorem mapEdgesToElk_inversion_witness :
    (mapEdgeToElk wNodes wEdgeInv).sources = ["B"] ∧
    (mapEdgeToElk wNodes wEdgeStd).sources = ["A"] := by
  constructor
  · exact ((mapEdgesToElk_inversion wNodes wEdgeInv).1 ⟨by decide, by decide⟩).1
  · exact ((mapEdgesToElk_inversion wNodes wEdgeStd).2 (by decide)).1

end ElkMapper


namespace FocusMode

/-- A graph node as read by `src/lib/focusMode.ts`: id and optional parent
container (area) id. -/
structure FNode where
  id : String
  parentId : Option String
deriving DecidableEq

/-- An edge as read by `src/lib/focusMode.ts`. -/
structure FEdge where
  id : String
  source : String
  target : String
deriving DecidableEq

/-- One step of `getParentAreas`: look the id up in the node list and add
its parent id — when present and truthy (non-empty) — to the accumulated
set. JS `Set` is embedded as a duplicate-free insertion-ordered list. -/
def addParentArea (nodes : List FNode) (acc : List String) (nodeId : String) :
    List String :=
  match nodes.find? (fun n => n.id == nodeId) with
  | some n =>
    match n.parentId with
    | some p => if p = "" then acc else if p ∈ acc then acc else acc ++ [p]
    | none => acc
  | none => acc

/-- Shallow embedding of `getParentAreas` (`src/lib/focusMode.ts`): the set
of parent area ids of the given node ids. -/
def getParentAreas (nodeIds : List String) (nodes : List FNode) : List String :=
  nodeIds.foldl (addParentArea nodes) []

/-- The `allNodes.some(...)` check of `filterGraphByNeighborhood`: does some
node have this area as parent and lie in the neighborhood? -/
def hasChildInNeighborhood (nodes : List FNode) (nb : List String)
    (areaId : String) : Bool :=
  nodes.any fun n => n.parentId == some areaId && nb.contains n.id

/-- The `nonEmptyAreas` set built by `filterGraphByNeighborhood`: parent
areas of neighborhood nodes that have at least one direct child in the
neighborhood. -/
def nonEmptyAreasOf (nodes : List FNode) (nb : List String) : List String :=
  (getParentAreas nb nodes).foldl
    (fun acc areaId =>
      if hasChildInNeighborhood nodes nb areaId then
        (if areaId ∈ acc then acc else acc ++ [areaId])
      else acc) []

/-- Shallow embedding of `filterEdges` (`src/lib/focusMode.ts`): keep the
edges whose two endpoints are both visible. -/
def filterEdges (edges : List FEdge) (visible : List String) : List FEdge :=
  edges.filter fun e => visible.contains e.source && visible.contains e.target

/-- The record returned by `filterGraphByNeighborhood`. -/
structure FilteredGraph where
  nodes : List FNode
  edges : List FEdge
  parentAreas : List String

/-- Shallow embedding of `filterGraphByNeighborhood`
(`src/lib/focusMode.ts`): keeps the neighborhood nodes plus their non-empty
parent areas, and the edges between visible nodes. -/
def filterGraphByNeighborhood (allNodes : List FNode) (allEdges : List FEdge)
    (nb : List String) : FilteredGraph :=
  let nonEmptyAreas := nonEmptyAreasOf allNodes nb
  let visibleNodeIds := nb ++ nonEmptyAreas
  { nodes := allNodes.filter fun n => visibleNodeIds.contains n.id
    edges := filterEdges allEdges visibleNodeIds
    parentAreas := nonEmptyAreas }

theorem mem_set_add (acc : List String) (a c : String) :
    c ∈ (if a ∈ acc then acc else acc ++ [a]) ↔ c ∈ acc ∨ c = a := by
  by_cases h : a ∈ acc
  · rw [if_pos h]
    constructor
    · exact Or.inl
    · rintro (hc | rfl)
      · exact hc
      · exact h
  · rw [if_neg h]
    simp [List.mem_append]

theorem mem_addParentArea (nodes : List FNode) (acc : List String) (i c : String) :
    c ∈ addParentArea nodes acc i ↔
      c ∈ acc ∨
        ((nodes.find? (fun m => m.id == i)).bind FNode.parentId = some c ∧
          c ≠ "") := by
  rcases hf : nodes.find? (fun m => m.id == i) with _ | n
  · simp [addParentArea, hf]
  · rcases hp : n.parentId with _ | p
    · simp [addParentArea, hf, hp]
    · by_cases hpe : p = ""
      · subst hpe
        simp [addParentArea, hf, hp]
        rintro rfl h
        exact absurd rfl h
      · rw [show addParentArea nodes acc i =
            (if p ∈ acc then acc else acc ++ [p]) by
          simp [addParentArea, hf, hp, hpe]]
        rw [mem_set_add]
        simp only [hf, Option.some_bind, hp, Option.some.injEq]
        constructor
        · rintro (hc | rfl)
          · exact Or.inl hc
          · exact Or.inr ⟨rfl, hpe⟩
        · rintro (hc | ⟨rfl, -⟩)
          · exact Or.inl hc
          · exact Or.inr rfl

theorem mem_getParentAreas (nodes : List FNode) (ids : List String) (c : String) :
    c ∈ getParentAreas ids nodes ↔
      ∃ i ∈ ids, (nodes.find? (fun m => m.id == i)).bind FNode.parentId = some c ∧
        c ≠ "" := by
  have main : ∀ (l : List String) (acc : List String),
      c ∈ l.foldl (addParentArea nodes) acc ↔
        c ∈ acc ∨ ∃ i ∈ l,
          (nodes.find? (fun m => m.id == i)).bind FNode.parentId = some c ∧
            c ≠ "" := by
    intro l
    induction l with
    | nil => simp
    | cons a l ih =>
      intro acc
      rw [List.foldl_cons, ih, mem_addParentArea]
      constructor
      · rintro ((hc | hstep) | ⟨j, hj, hcond⟩)
        · exact Or.inl hc
        · exact Or.inr ⟨a, List.mem_cons_self a l, hstep⟩
        · exact Or.inr ⟨j, List.mem_cons_of_mem a hj, hcond⟩
      · rintro (hc | ⟨j, hj, hcond⟩)
        · exact Or.inl (Or.inl hc)
        · rcases List.mem_cons.1 hj with rfl | hj
          · exact Or.inl (Or.inr hcond)
          · exact Or.inr ⟨j, hj, hcond⟩
  simpa using main ids []

theorem mem_filter_set_foldl (p : String → Bool) (l : List String)
    (acc : List String) (c : String) :
    c ∈ l.foldl (fun acc a =>
        if p a then (if a ∈ acc then acc else acc ++ [a]) else acc) acc ↔
      c ∈ acc ∨ (c ∈ l ∧ p c = true) := by
  induction l generalizing acc with
  | nil => simp
  | cons a l ih =>
    rw [List.foldl_cons]
    by_cases hp : p a
    · rw [if_pos hp, ih, mem_set_add]
      constructor
      · rintro ((hc | rfl) | ⟨h1, h2⟩)
        · exact Or.inl hc
        · exact Or.inr ⟨List.mem_cons_self c l, hp⟩
        · exact Or.inr ⟨List.mem_cons_of_mem a h1, h2⟩
      · rintro (hc | ⟨h1, h2⟩)
        · exact Or.inl (Or.inl hc)
        · rcases List.mem_cons.1 h1 with rfl | h1
          · exact Or.inl (Or.inr rfl)
          · exact Or.inr ⟨h1, h2⟩
    · rw [if_neg hp, ih]
      constructor
      · rintro (hc | ⟨h1, h2⟩)
        · exact Or.inl hc
        · exact Or.inr ⟨List.mem_cons_of_mem a h1, h2⟩
      · rintro (hc | ⟨h1, h2⟩)
        · exact Or.inl hc
        · rcases List.mem_cons.1 h1 with rfl | h1
          · exact absurd h2 (by simpa using hp)
          · exact Or.inr ⟨h1, h2⟩

theorem hasChild_iff (nodes : List FNode) (nb : List String) (areaId : String) :
    hasChildInNeighborhood nodes nb areaId = true ↔
      ∃ n ∈ nodes, n.parentId = some areaId ∧ n.id ∈ nb := by
  unfold hasChildInNeighborhood
  rw [List.any_eq_true]
  constructor
  · rintro ⟨n, hn, hcond⟩
    have := hcond
    simp only [Bool.and_eq_true, beq_iff_eq] at this
    refine ⟨n, hn, this.1, ?_⟩
    have h2 := this.2
    simpa [List.contains] using h2
  · rintro ⟨n, hn, hpar, hnb⟩
    refine ⟨n, hn, ?_⟩
    simp only [Bool.and_eq_true, beq_iff_eq]
    exact ⟨hpar, by simpa [List.contains] using hnb⟩

theorem find_self_of_nodup (nodes : List FNode) (n : FNode) :
    (nodes.map FNode.id).Nodup → n ∈ nodes →
      nodes.find? (fun m => m.id == n.id) = some n := by
  induction nodes with
  | nil => intro _ hmem; simp at hmem
  | cons a l ih =>
    intro huniq hmem
    rcases List.mem_cons.1 hmem with hmem | hmem
    · subst hmem
      simp [List.find?]
    · have ha : a.id ≠ n.id := by
        intro h
        have hin : n.id ∈ l.map FNode.id := List.mem_map.2 ⟨n, hmem, rfl⟩
        rw [← h] at hin
        exact (List.nodup_cons.1 huniq).1 hin
      have hfalse : (a.id == n.id) = false := by simpa using ha
      rw [List.find?, hfalse]
      exact ih (List.nodup_cons.1 huniq).2 hmem

/-- C8: a container id is in the `parentAreas` of the filtered output if
and only if some node of the graph has it as parent and lies in the
neighborhood set; in particular a container whose only member node falls
outside the neighborhood is excluded. Node ids are assumed unique and the
container id non-empty, as the upstream data model guarantees. -/
theorem container_filtering_iff (allNodes : List FNode) (allEdges : List FEdge)
    (nb : List String) (c : String)
    (huniq : (allNodes.map FNode.id).Nodup) (hc : c ≠ "") :
    c ∈ (filterGraphByNeighborhood allNodes allEdges nb).parentAreas ↔
      ∃ n ∈ allNodes, n.parentId = some c ∧ n.id ∈ nb := by
  show c ∈ nonEmptyAreasOf allNodes nb ↔ _
  unfold nonEmptyAreasOf
  rw [mem_filter_set_foldl]
  simp only [List.not_mem_nil, false_or]
  constructor
  · rintro ⟨-, hchild⟩
    exact (hasChild_iff allNodes nb c).1 hchild
  · rintro ⟨n, hn, hpar, hnb⟩
    constructor
    · rw [mem_getParentAreas]
      refine ⟨n.id, hnb, ?_, hc⟩
      rw [find_self_of_nodup allNodes n huniq hn]
      simpa using hpar
    -- the second component of mem_filter_set_foldl
    · exact (hasChild_iff allNodes nb c).2 ⟨n, hn, hpar, hnb⟩

/-- Graph for the C8 witness: two areas with one member node each, only
`n1` in the neighborhood. -/
def wFNodes : List FNode := [⟨"n1", some "area1"⟩, ⟨"n2", some "area2"⟩]

/-- Witness for C8: with neighborhood `{n1}`, area `area1` (whose member
`n1` is inside) is retained. -/
theorem container_filtering_iff_witness :
    "area1" ∈ (filterGraphByNeighborhood wFNodes [] ["n1"]).parentAreas := by
  exact (container_filtering_iff wFNodes [] ["n1"] "area1"
    (by decide) (by decide)).mpr
    ⟨⟨"n1", some "area1"⟩, by decide, by decide, by decide⟩

end FocusMode

namespace Router

/-- A 2-D point of `src/lib/orthogonalRouter.ts`. JS numbers are idealised
as exact rationals; `Math.sqrt` is modelled by the computable `Rat.sqrt`
(exact on the perfect squares arising in every concrete input used below —
no theorem in this file depends on the value of a square root that floats
would round). -/
structure Pt where
  x : ℚ
  y : ℚ
deriving DecidableEq

/-- An edge as consumed by the parallel-edge separator: id plus source and
target node ids. -/
structure REdge where
  id : String
  source : String
  target : String
deriving DecidableEq

/-- The grouping key of `groupParallelEdges`: the template string
`edge.source + "-" + edge.target` (ordered concatenation). -/
def groupKey (e : REdge) : String := e.source ++ "-" ++ e.target

/-- One step of `groupParallelEdges`: push the edge onto its key's group,
creating the group if absent. JS `Map` is embedded as an insertion-ordered
association list. -/
def addToGroups (gs : List (String × List REdge)) (e : REdge) :
    List (String × List REdge) :=
  if (gs.lookup (groupKey e)).isSome then
    gs.map fun kv => if kv.1 = groupKey e then (kv.1, kv.2 ++ [e]) else kv
  else gs ++ [(groupKey e, [e])]

/-- Shallow embedding of `groupParallelEdges`
(`src/lib/orthogonalRouter.ts`): group all edges by their key string. -/
def groupParallelEdges (edges : List REdge) : List (String × List REdge) :=
  edges.foldl addToGroups []

/-- Shallow embedding of `calculatePerpendicularOffset`
(`src/lib/orthogonalRouter.ts`): the perpendicular of the reference segment
`p1 → p2`, scaled to `distance`; `(0, distance)` for a zero-length
segment. -/
def calculatePerpendicularOffset (p1 p2 : Pt) (distance : ℚ) : Pt :=
  let dx := p2.x - p1.x
  let dy := p2.y - p1.y
  let length := Rat.sqrt (dx * dx + dy * dy)
  if length = 0 then ⟨0, distance⟩
  else ⟨-dy / length * distance, dx / length * distance⟩

/-- Shallow embedding of `offsetPath` (`src/lib/orthogonalRouter.ts`):
translate every waypoint of the path — the endpoints included — by the
offset vector. -/
def offsetPath (waypoints : List Pt) (offset : Pt) : List Pt :=
  waypoints.map fun p => ⟨p.x + offset.x, p.y + offset.y⟩

/-- JS `Map.set` on an insertion-ordered association list: overwrite the
existing binding or append a new one. -/
def setAssoc (m : List (String × List Pt)) (k : String) (v : List Pt) :
    List (String × List Pt) :=
  if (m.lookup k).isSome then
    m.map fun kv => if kv.1 = k then (k, v) else kv
  else m ++ [(k, v)]

/-- The `groups.forEach` body of `separateParallelEdges` for one group: a
singleton group has its path copied through unchanged (when present), a
larger group has every member's path translated by its perpendicular
offset `(index - (n-1)/2) * separation`; a missing path is replaced by `[]`
and a path shorter than two points is copied unchanged. -/
def processGroup (edgePaths : String → Option (List Pt)) (sep : ℚ)
    (acc : List (String × List Pt)) (g : String × List REdge) :
    List (String × List Pt) :=
  if g.2.length = 1 then
    match g.2.head? with
    | some e =>
      match edgePaths e.id with
      | some path => setAssoc acc e.id path
      | none => acc
    | none => acc
  else
    g.2.enum.foldl (fun acc2 ie =>
      match edgePaths ie.2.id with
      | none => setAssoc acc2 ie.2.id []
      | some path =>
        match path with
        | p0 :: p1 :: _ =>
          setAssoc acc2 ie.2.id (offsetPath path
            (calculatePerpendicularOffset p0 p1
              (((ie.1 : ℚ) - ((g.2.length : ℚ) - 1) / 2) * sep)))
        | _ => setAssoc acc2 ie.2.id path) acc

/-- The separation constant `EDGE_SEPARATION` of
`src/lib/orthogonalRouter.ts`. -/
def EDGE_SEPARATION : ℚ := 12

/-- Shallow embedding of `separateParallelEdges`
(`src/lib/orthogonalRouter.ts`): group the edges, then offset the members
of every group of two or more. -/
def separateParallelEdges (edges : List REdge)
    (edgePaths : String → Option (List Pt)) (sep : ℚ) :
    List (String × List Pt) :=
  (groupParallelEdges edges).foldl (processGroup edgePaths sep) []

theorem lookup_eq_none_iff {α : Type} (m : List (String × α)) (k : String) :
    m.lookup k = none ↔ k ∉ m.map Prod.fst := by
  induction m with
  | nil => simp
  | cons a m ih =>
    by_cases hk : k = a.1
    · subst hk
      simp [List.lookup]
    · have hbeq : (k == a.1) = false := by simpa using hk
      simp [List.lookup, hbeq, ih, Ne.symm, hk]

theorem lookup_isSome_iff {α : Type} (m : List (String × α)) (k : String) :
    (m.lookup k).isSome = true ↔ k ∈ m.map Prod.fst := by
  rcases h : m.lookup k with _ | v
  · simp [(lookup_eq_none_iff m k).1 h]
  · simp only [Option.isSome_some, true_iff]
    by_contra hmem
    rw [(lookup_eq_none_iff m k).2 hmem] at h
    exact Option.noConfusion h

/-- The invariant maintained by the `groupParallelEdges` fold: after
processing `done`, each group holds exactly the processed edges with its
key, every processed edge has a group, and keys are unique. -/
def GroupInv (acc : List (String × List REdge)) (done : List REdge) : Prop :=
  (∀ g ∈ acc, g.2 = done.filter fun x => groupKey x == g.1) ∧
  (∀ e ∈ done, groupKey e ∈ acc.map Prod.fst) ∧
  (acc.map Prod.fst).Nodup

theorem groupInv_step (acc : List (String × List REdge)) (done : List REdge)
    (e : REdge) (h : GroupInv acc done) :
    GroupInv (addToGroups acc e) (done ++ [e]) := by
  obtain ⟨h1, h2, h3⟩ := h
  unfold addToGroups
  by_cases hk : (acc.lookup (groupKey e)).isSome = true
  · rw [if_pos hk]
    refine ⟨?_, ?_, ?_⟩
    · intro g hg
      rcases List.mem_map.1 hg with ⟨kv, hkv, hmap⟩
      by_cases hkey : kv.1 = groupKey e
      · rw [if_pos hkey] at hmap
        subst hmap
        rw [List.filter_append, ← h1 kv hkv, hkey]
        simp
      · rw [if_neg hkey] at hmap
        subst hmap
        rw [List.filter_append, ← h1 kv hkv]
        have : (groupKey e == kv.1) = false := by
          simpa using fun hc => hkey hc.symm
        simp [this]
    · intro x hx
      have hmapfst : (acc.map fun kv =>
          if kv.1 = groupKey e then (kv.1, kv.2 ++ [e]) else kv).map Prod.fst =
          acc.map Prod.fst := by
        rw [List.map_map]
        refine List.map_congr_left ?_
        intro kv _
        by_cases hkey : kv.1 = groupKey e
        · simp [hkey]
        · simp [hkey]
      rw [hmapfst]
      rcases List.mem_append.1 hx with hx | hx
      · exact h2 x hx
      · have hxe : x = e := by simpa using hx
        subst hxe
        exact (lookup_isSome_iff acc (groupKey x)).1 hk
    · have hmapfst : (acc.map fun kv =>
          if kv.1 = groupKey e then (kv.1, kv.2 ++ [e]) else kv).map Prod.fst =
          acc.map Prod.fst := by
        rw [List.map_map]
        refine List.map_congr_left ?_
        intro kv _
        by_cases hkey : kv.1 = groupKey e
        · simp [hkey]
        · simp [hkey]
      rw [hmapfst]
      exact h3
  · rw [if_neg hk]
    have hnotmem : groupKey e ∉ acc.map Prod.fst := by
      intro hmem
      exact hk ((lookup_isSome_iff acc (groupKey e)).2 hmem)
    refine ⟨?_, ?_, ?_⟩
    · intro g hg
      rcases List.mem_append.1 hg with hg | hg
      · rw [List.filter_append, ← h1 g hg]
        have hne : (groupKey e == g.1) = false := by
          have hgmem : g.1 ∈ acc.map Prod.fst := List.mem_map.2 ⟨g, hg, rfl⟩
          refine beq_eq_false_iff_ne.2 ?_
          intro hc
          exact hnotmem (hc ▸ hgmem)
        simp [hne]
      · have hge : g = (groupKey e, [e]) := by simpa using hg
        subst hge
        rw [List.filter_append]
        have hdone : done.filter (fun x => groupKey x == groupKey e) = [] := by
          rw [List.filter_eq_nil_iff]
          intro x hx hbeq
          exact hnotmem ((eq_of_beq hbeq) ▸ h2 x hx)
        rw [hdone]
        simp
    · intro x hx
      rcases List.mem_append.1 hx with hx | hx
      · simp only [List.map_append, List.mem_append]
        exact Or.inl (h2 x hx)
      · have hxe : x = e := by simpa using hx
        subst hxe
        simp
    · simp only [List.map_append, List.map_cons, List.map_nil]
      exact List.nodup_append.2 ⟨h3, List.nodup_singleton _, by
        intro a ha hb
        have : a = groupKey e := by simpa using hb
        exact hnotmem (this ▸ ha)⟩

theorem groupInv_fold (rest : List REdge) :
    ∀ (acc : List (String × List REdge)) (done : List REdge),
      GroupInv acc done →
      GroupInv (rest.foldl addToGroups acc) (done ++ rest) := by
  induction rest with
  | nil => intro acc done h; simpa using h
  | cons a rest ih =>
    intro acc done h
    have hstep := groupInv_step acc done a h
    have := ih (addToGroups acc a) (done ++ [a]) hstep
    simpa using this

theorem groupParallelEdges_inv (edges : List REdge) :
    GroupInv (groupParallelEdges edges) edges := by
  have h := groupInv_fold edges [] [] ⟨by simp, by simp, by simp⟩
  simpa [groupParallelEdges] using h

end Router

namespace Router

theorem lookup_map_update_self (m : List (String × List Pt)) (k : String)
    (v : List Pt) (h : (m.lookup k).isSome = true) :
    ((m.map fun kv => if kv.1 = k then (k, v) else kv).lookup k) = some v := by
  induction m with
  | nil => simp at h
  | cons a m ih =>
    rcases a with ⟨ka, va⟩
    by_cases hak : ka = k
    · subst hak
      have hmap : (((ka, va) :: m).map fun kv => if kv.1 = ka then (ka, v) else kv) =
          (ka, v) :: (m.map fun kv => if kv.1 = ka then (ka, v) else kv) := by
        simp
      rw [hmap]
      simp [List.lookup]
    · have hmap : (((ka, va) :: m).map fun kv => if kv.1 = k then (k, v) else kv) =
          (ka, va) :: (m.map fun kv => if kv.1 = k then (k, v) else kv) := by
        simp [hak]
      rw [hmap]
      have hbeq : (k == ka) = false := by simpa using Ne.symm hak
      have hrest : (m.lookup k).isSome = true := by
        have hskip : List.lookup k ((ka, va) :: m) = List.lookup k m := by
          simp [List.lookup, hbeq]
        rwa [hskip] at h
      have hskip2 : List.lookup k ((ka, va) ::
          (m.map fun kv => if kv.1 = k then (k, v) else kv)) =
          List.lookup k (m.map fun kv => if kv.1 = k then (k, v) else kv) := by
        simp [List.lookup, hbeq]
      rw [hskip2]
      exact ih hrest

theorem lookup_append_single_self (m : List (String × List Pt)) (k : String)
    (v : List Pt) (h : m.lookup k = none) :
    ((m ++ [(k, v)]).lookup k) = some v := by
  induction m with
  | nil => simp [List.lookup]
  | cons a m ih =>
    rcases a with ⟨ka, va⟩
    have hbeq : (k == ka) = false := by
      rcases hb : (k == ka) with _ | _
      · rfl
      · exfalso
        simp [List.lookup, hb] at h
    have hrest : m.lookup k = none := by
      simpa [List.lookup, hbeq] using h
    simpa [List.lookup, hbeq] using ih hrest

theorem lookup_map_update_ne (m : List (String × List Pt)) (k : String)
    (v : List Pt) (q : String) (h : q ≠ k) :
    ((m.map fun kv => if kv.1 = k then (k, v) else kv).lookup q) = m.lookup q := by
  induction m with
  | nil => simp
  | cons a m ih =>
    rcases a with ⟨ka, va⟩
    by_cases hak : ka = k
    · subst hak
      have hmap : (((ka, va) :: m).map fun kv => if kv.1 = ka then (ka, v) else kv) =
          (ka, v) :: (m.map fun kv => if kv.1 = ka then (ka, v) else kv) := by
        simp
      rw [hmap]
      have hbeq : (q == ka) = false := by simpa using h
      simp only [List.lookup, hbeq]
      exact ih
    · have hmap : (((ka, va) :: m).map fun kv => if kv.1 = k then (k, v) else kv) =
          (ka, va) :: (m.map fun kv => if kv.1 = k then (k, v) else kv) := by
        simp [hak]
      rw [hmap]
      rcases hb : (q == ka) with _ | _
      · simp only [List.lookup, hb]
        exact ih
      · simp only [List.lookup, hb]

theorem lookup_append_single_ne (m : List (String × List Pt)) (k : String)
    (v : List Pt) (q : String) (h : q ≠ k) :
    ((m ++ [(k, v)]).lookup q) = m.lookup q := by
  induction m with
  | nil => simp [List.lookup, show (q == k) = false by simpa using h]
  | cons a m ih =>
    rcases a with ⟨ka, va⟩
    rcases hb : (q == ka) with _ | _
    · simpa [List.lookup, hb] using ih
    · simp [List.lookup, hb]

theorem lookup_setAssoc_self (m : List (String × List Pt)) (k : String)
    (v : List Pt) : (setAssoc m k v).lookup k = some v := by
  unfold setAssoc
  by_cases h : (m.lookup k).isSome = true
  · rw [if_pos h]
    exact lookup_map_update_self m k v h
  · rw [if_neg h]
    refine lookup_append_single_self m k v ?_
    rcases hh : m.lookup k with _ | w
    · rfl
    · rw [hh] at h
      simp at h

theorem lookup_setAssoc_ne (m : List (String × List Pt)) (k : String)
    (v : List Pt) (q : String) (h : q ≠ k) :
    (setAssoc m k v).lookup q = m.lookup q := by
  unfold setAssoc
  by_cases hs : (m.lookup k).isSome = true
  · rw [if_pos hs]
    exact lookup_map_update_ne m k v q h
  · rw [if_neg hs]
    exact lookup_append_single_ne m k v q h

/-- The path value that `separateParallelEdges` records for the member at
`index` of a group of `n` parallel edges: missing paths become `[]`, paths
shorter than two points pass unchanged, all others are translated by the
perpendicular offset `(index - (n-1)/2) * sep` of their first segment. -/
def multiVal (edgePaths : String → Option (List Pt)) (sep : ℚ) (n : ℕ)
    (idx : ℕ) (e : REdge) : List Pt :=
  match edgePaths e.id with
  | none => []
  | some path =>
    match path with
    | p0 :: p1 :: _ =>
      offsetPath path (calculatePerpendicularOffset p0 p1
        (((idx : ℚ) - ((n : ℚ) - 1) / 2) * sep))
    | _ => path

theorem processGroup_eq_multi (edgePaths : String → Option (List Pt)) (sep : ℚ)
    (acc : List (String × List Pt)) (g : String × List REdge)
    (h : ¬ g.2.length = 1) :
    processGroup edgePaths sep acc g =
      g.2.enum.foldl (fun acc2 ie =>
        setAssoc acc2 ie.2.id (multiVal edgePaths sep g.2.length ie.1 ie.2)) acc := by
  unfold processGroup
  rw [if_neg h]
  have hfun : (fun (acc2 : List (String × List Pt)) (ie : ℕ × REdge) =>
      match edgePaths ie.2.id with
      | none => setAssoc acc2 ie.2.id []
      | some path =>
        match path with
        | p0 :: p1 :: _ =>
          setAssoc acc2 ie.2.id (offsetPath path
            (calculatePerpendicularOffset p0 p1
              (((ie.1 : ℚ) - ((g.2.length : ℚ) - 1) / 2) * sep)))
        | _ => setAssoc acc2 ie.2.id path) =
      (fun acc2 ie =>
        setAssoc acc2 ie.2.id (multiVal edgePaths sep g.2.length ie.1 ie.2)) := by
    funext acc2 ie
    rcases hp : edgePaths ie.2.id with _ | path
    · simp [multiVal, hp]
    · rcases path with _ | ⟨p0, _ | ⟨p1, rest⟩⟩
      · simp [multiVal, hp]
      · simp [multiVal, hp]
      · simp [multiVal, hp]
  rw [hfun]

end Router

namespace Router

theorem lookup_multiFold_notmem (edgePaths : String → Option (List Pt)) (sep : ℚ)
    (n : ℕ) (l : List REdge) :
    ∀ (k : ℕ) (acc : List (String × List Pt)) (i : String),
      i ∉ l.map REdge.id →
      ((l.enumFrom k).foldl (fun acc2 ie =>
        setAssoc acc2 ie.2.id (multiVal edgePaths sep n ie.1 ie.2)) acc).lookup i =
      acc.lookup i := by
  induction l with
  | nil => intro k acc i _; simp [List.enumFrom]
  | cons a l ih =>
    intro k acc i hi
    simp only [List.map_cons, List.mem_cons, not_or] at hi
    obtain ⟨hia, hil⟩ := hi
    have hstep : (a :: l).enumFrom k = (k, a) :: l.enumFrom (k + 1) := by
      simp [List.enumFrom]
    rw [hstep, List.foldl_cons, ih (k + 1) _ i hil]
    exact lookup_setAssoc_ne _ _ _ _ hia

theorem lookup_multiFold_mem (edgePaths : String → Option (List Pt)) (sep : ℚ)
    (n : ℕ) (l : List REdge) :
    ∀ (k : ℕ) (acc : List (String × List Pt)) (e : REdge),
      (l.map REdge.id).Nodup → e ∈ l →
      ((l.enumFrom k).foldl (fun acc2 ie =>
        setAssoc acc2 ie.2.id (multiVal edgePaths sep n ie.1 ie.2)) acc).lookup e.id =
      some (multiVal edgePaths sep n (k + l.indexOf e) e) := by
  induction l with
  | nil => intro k acc e _ he; simp at he
  | cons a l ih =>
    intro k acc e hnd he
    have hnd2 : (a.id :: l.map REdge.id).Nodup := by simpa using hnd
    have hstep : (a :: l).enumFrom k = (k, a) :: l.enumFrom (k + 1) := by
      simp [List.enumFrom]
    rw [hstep, List.foldl_cons]
    by_cases hea : e = a
    · subst hea
      have hidnot : e.id ∉ l.map REdge.id := (List.nodup_cons.1 hnd2).1
      rw [lookup_multiFold_notmem edgePaths sep n l (k + 1) _ e.id hidnot,
        lookup_setAssoc_self]
      simp [List.indexOf_cons_self]
    · have hel : e ∈ l := by
        rcases List.mem_cons.1 he with h | h
        · exact absurd h hea
        · exact h
      rw [ih (k + 1) _ e (List.nodup_cons.1 hnd2).2 hel]
      have hidx : (a :: l).indexOf e = l.indexOf e + 1 :=
        List.indexOf_cons_ne l (fun hc => hea hc.symm)
      rw [hidx]
      have harith : k + 1 + l.indexOf e = k + (l.indexOf e + 1) := by omega
      rw [harith]

theorem lookup_processGroup_notmem (edgePaths : String → Option (List Pt))
    (sep : ℚ) (acc : List (String × List Pt)) (g : String × List REdge)
    (i : String) (hi : i ∉ g.2.map REdge.id) :
    (processGroup edgePaths sep acc g).lookup i = acc.lookup i := by
  by_cases hlen : g.2.length = 1
  · unfold processGroup
    rw [if_pos hlen]
    rcases List.length_eq_one.1 hlen with ⟨e, hge⟩
    rw [hge]
    have hie : i ≠ e.id := by
      intro hc
      apply hi
      rw [hge, hc]
      simp
    simp only [List.head?]
    rcases hp : edgePaths e.id with _ | path
    · rfl
    · exact lookup_setAssoc_ne _ _ _ _ hie
  · rw [processGroup_eq_multi edgePaths sep acc g hlen]
    exact lookup_multiFold_notmem edgePaths sep g.2.length g.2 0 acc i hi

theorem lookup_processGroup_single (edgePaths : String → Option (List Pt))
    (sep : ℚ) (acc : List (String × List Pt)) (g : String × List REdge)
    (e : REdge) (hg : g.2 = [e]) :
    (processGroup edgePaths sep acc g).lookup e.id =
      match edgePaths e.id with
      | some path => some path
      | none => acc.lookup e.id := by
  unfold processGroup
  rw [hg]
  simp only [List.length_singleton, if_pos rfl, List.head?]
  rcases hp : edgePaths e.id with _ | path
  · rfl
  · exact lookup_setAssoc_self acc e.id path

theorem lookup_processGroup_multi (edgePaths : String → Option (List Pt))
    (sep : ℚ) (acc : List (String × List Pt)) (g : String × List REdge)
    (e : REdge) (hnd : (g.2.map REdge.id).Nodup) (he : e ∈ g.2)
    (hlen : ¬ g.2.length = 1) :
    (processGroup edgePaths sep acc g).lookup e.id =
      some (multiVal edgePaths sep g.2.length (g.2.indexOf e) e) := by
  rw [processGroup_eq_multi edgePaths sep acc g hlen]
  have h0 := lookup_multiFold_mem edgePaths sep g.2.length g.2 0 acc e hnd he
  simpa using h0

theorem lookup_groupsFold_notmem (edgePaths : String → Option (List Pt))
    (sep : ℚ) (gs : List (String × List REdge)) :
    ∀ (acc : List (String × List Pt)) (i : String),
      (∀ g ∈ gs, i ∉ g.2.map REdge.id) →
      (gs.foldl (processGroup edgePaths sep) acc).lookup i = acc.lookup i := by
  induction gs with
  | nil => intro acc i _; rfl
  | cons g gs ih =>
    intro acc i hi
    rw [List.foldl_cons, ih _ i fun g' hg' => hi g' (List.mem_cons_of_mem g hg')]
    exact lookup_processGroup_notmem edgePaths sep acc g i
      (hi g (List.mem_cons_self g gs))

theorem eq_of_id_eq (edges : List REdge) (hid : (edges.map REdge.id).Nodup) :
    ∀ x ∈ edges, ∀ y ∈ edges, x.id = y.id → x = y := by
  induction edges with
  | nil => simp
  | cons a l ih =>
    intro x hx y hy hxy
    have hnd : (a.id :: l.map REdge.id).Nodup := by simpa using hid
    rcases List.mem_cons.1 hx with hxa | hxl <;> rcases List.mem_cons.1 hy with hya | hyl
    · rw [hxa, hya]
    · subst hxa
      exact absurd (by rw [hxy]; exact List.mem_map.2 ⟨y, hyl, rfl⟩)
        (List.nodup_cons.1 hnd).1
    · subst hya
      exact absurd (by rw [← hxy]; exact List.mem_map.2 ⟨x, hxl, rfl⟩)
        (List.nodup_cons.1 hnd).1
    · exact ih (List.nodup_cons.1 hnd).2 x hxl y hyl hxy

/-- The parallel group an edge belongs to: all edges sharing its (ordered)
key string. -/
def grpOf (edges : List REdge) (e : REdge) : List REdge :=
  edges.filter fun x => groupKey x == groupKey e

/-- Full characterisation of what `separateParallelEdges` records for an
edge (assuming the data-model invariant of unique edge ids): an edge alone
in its group keeps exactly its input path entry, and an edge in a larger
group gets the `multiVal` offset path for its index within the group. -/
theorem lookup_separateParallelEdges (edges : List REdge)
    (edgePaths : String → Option (List Pt)) (sep : ℚ) (e : REdge)
    (hid : (edges.map REdge.id).Nodup) (he : e ∈ edges) :
    (separateParallelEdges edges edgePaths sep).lookup e.id =
      if (grpOf edges e).length = 1 then edgePaths e.id
      else some (multiVal edgePaths sep (grpOf edges e).length
        ((grpOf edges e).indexOf e) e) := by
  obtain ⟨h1, h2, h3⟩ := groupParallelEdges_inv edges
  have hkey : groupKey e ∈ (groupParallelEdges edges).map Prod.fst := h2 e he
  rcases List.mem_map.1 hkey with ⟨gstar, hgmem, hgfst⟩
  rcases List.append_of_mem hgmem with ⟨s, t, hsplit⟩
  have hg2 : gstar.2 = grpOf edges e := by
    rw [h1 gstar hgmem, hgfst]
    rfl
  have hein : e ∈ gstar.2 := by
    rw [hg2]
    exact List.mem_filter.2 ⟨he, by simp⟩
  have hkeys := h3
  rw [hsplit] at hkeys
  simp only [List.map_append, List.map_cons] at hkeys
  rcases List.nodup_append.1 hkeys with ⟨hndS, hndT, hdisj⟩
  have hnotT : ∀ g' ∈ t, g'.1 ≠ gstar.1 := by
    intro g' hg' hc
    exact (List.nodup_cons.1 hndT).1 (hc ▸ List.mem_map.2 ⟨g', hg', rfl⟩)
  have hnotS : ∀ g' ∈ s, g'.1 ≠ gstar.1 := by
    intro g' hg' hc
    have hmem : g'.1 ∈ s.map Prod.fst := List.mem_map.2 ⟨g', hg', rfl⟩
    have := hdisj hmem
    rw [hc] at this
    exact this (List.mem_cons_self _ _)
  have hother : ∀ g', (g' ∈ s ∨ g' ∈ t) → e.id ∉ g'.2.map REdge.id := by
    intro g' hg' hmem
    have hg'mem : g' ∈ groupParallelEdges edges := by
      rw [hsplit]
      rcases hg' with h | h
      · exact List.mem_append.2 (Or.inl h)
      · exact List.mem_append.2 (Or.inr (List.mem_cons_of_mem _ h))
    rcases List.mem_map.1 hmem with ⟨x, hx, hxid⟩
    have hxgrp := hx
    rw [h1 g' hg'mem] at hxgrp
    have hxedges : x ∈ edges := (List.mem_filter.1 hxgrp).1
    have hxkey : groupKey x = g'.1 := eq_of_beq (List.mem_filter.1 hxgrp).2
    have hxe : x = e := eq_of_id_eq edges hid x hxedges e he hxid
    have hkeyc : g'.1 = gstar.1 := by
      rw [← hxkey, hxe, ← hgfst]
    rcases hg' with h | h
    · exact hnotS g' h hkeyc
    · exact hnotT g' h hkeyc
  have hndGrp : (gstar.2.map REdge.id).Nodup := by
    rw [hg2]
    exact hid.sublist ((List.filter_sublist edges).map REdge.id)
  unfold separateParallelEdges
  rw [hsplit, List.foldl_append, List.foldl_cons]
  rw [lookup_groupsFold_notmem edgePaths sep t _ e.id
    fun g' hg' => hother g' (Or.inr hg')]
  by_cases hlen : (grpOf edges e).length = 1
  · rcases List.length_eq_one.1 (hg2 ▸ hlen : gstar.2.length = 1) with ⟨a, ha⟩
    have hae : a = e := by
      have hmem : e ∈ [a] := ha ▸ hein
      have hea : e = a := by simpa using hmem
      exact hea.symm
    have hgsingle : gstar.2 = [e] := by rw [ha, hae]
    rw [lookup_processGroup_single edgePaths sep _ gstar e hgsingle, if_pos hlen]
    rcases hp : edgePaths e.id with _ | path
    · simp only [hp]
      rw [lookup_groupsFold_notmem edgePaths sep s _ e.id
        fun g' hg' => hother g' (Or.inl hg')]
      rfl
    · simp only [hp]
  · rw [lookup_processGroup_multi edgePaths sep _ gstar e hndGrp hein
      (by rw [hg2]; exact hlen), hg2, if_neg hlen]

end Router

namespace Router

/-- First edge of the C3 counterexample: runs `A → B`. -/
def cexRE1 : REdge := ⟨"e1", "A", "B"⟩

/-- Second edge of the C3 counterexample: the reverse direction `B → A`. -/
def cexRE2 : REdge := ⟨"e2", "B", "A"⟩

/-- A second `A → B` edge, parallel to `cexRE1`, used by the C2 input. -/
def cexRE3 : REdge := ⟨"e3", "A", "B"⟩

/-- C3 counterexample: the two edges `A → B` and `B → A` satisfy
`e1.source = e2.target` and `e1.target = e2.source`, yet no group of
`groupParallelEdges` contains both — the grouping key
`source + "-" + target` is ordered, not symmetric. -/
theorem grouping_unordered_cex :
    cexRE1.source = cexRE2.target ∧ cexRE1.target = cexRE2.source ∧
    ¬ ∃ g ∈ groupParallelEdges [cexRE1, cexRE2], cexRE1 ∈ g.2 ∧ cexRE2 ∈ g.2 := by
  refine ⟨rfl, rfl, ?_⟩
  decide

/-- C3 (amended): `groupParallelEdges` groups by the ordered key string
`source + "-" + target`: two edges share a group exactly when their key
strings coincide (so reversed edges generally do not share one), and an
edge alone in its group has its path entry passed through unchanged (edge
ids assumed unique, as the data model guarantees). -/
theorem grouping_ordered_key_amended (edges : List REdge) (e1 e2 : REdge)
    (h1 : e1 ∈ edges) (h2 : e2 ∈ edges) :
    ((∃ g ∈ groupParallelEdges edges, e1 ∈ g.2 ∧ e2 ∈ g.2) ↔
      groupKey e1 = groupKey e2) ∧
    ∀ (edgePaths : String → Option (List Pt)) (sep : ℚ),
      (edges.map REdge.id).Nodup →
      grpOf edges e1 = [e1] →
      (separateParallelEdges edges edgePaths sep).lookup e1.id =
        edgePaths e1.id := by
  obtain ⟨hg1, hg2, _⟩ := groupParallelEdges_inv edges
  constructor
  · constructor
    · rintro ⟨g, hg, he1, he2⟩
      have k1 : groupKey e1 = g.1 := by
        have := he1
        rw [hg1 g hg] at this
        exact eq_of_beq (List.mem_filter.1 this).2
      have k2 : groupKey e2 = g.1 := by
        have := he2
        rw [hg1 g hg] at this
        exact eq_of_beq (List.mem_filter.1 this).2
      rw [k1, k2]
    · intro hkeq
      have hkey : groupKey e1 ∈ (groupParallelEdges edges).map Prod.fst :=
        hg2 e1 h1
      rcases List.mem_map.1 hkey with ⟨g, hgmem, hgfst⟩
      refine ⟨g, hgmem, ?_, ?_⟩
      · rw [hg1 g hgmem]
        exact List.mem_filter.2 ⟨h1, by rw [hgfst]; simp⟩
      · rw [hg1 g hgmem]
        refine List.mem_filter.2 ⟨h2, ?_⟩
        rw [hgfst, ← hkeq]
        simp
  · intro edgePaths sep hid hsingle
    rw [lookup_separateParallelEdges edges edgePaths sep e1 hid h1,
      if_pos (by rw [hsingle]; rfl)]

/-- Path map for the C3 witness: no stored paths at all (a singleton group
then also stores nothing for its edge). -/
def noPaths : String → Option (List Pt) := fun _ => none

/-- Witness for the amended C3 theorem: two genuinely parallel `A → B`
edges share a group, and in a graph where `e1`'s group is a singleton its
(absent) path entry is passed through unchanged. -/
theorem grouping_ordered_key_amended_witness :
    (∃ g ∈ groupParallelEdges [cexRE1, cexRE3], cexRE1 ∈ g.2 ∧ cexRE3 ∈ g.2) ∧
    (separateParallelEdges [cexRE1, cexRE2] noPaths 12).lookup cexRE1.id =
      noPaths cexRE1.id := by
  constructor
  · exact (grouping_ordered_key_amended [cexRE1, cexRE3] cexRE1 cexRE3
      (by decide) (by decide)).1.mpr (by decide)
  · exact (grouping_ordered_key_amended [cexRE1, cexRE2] cexRE1 cexRE2
      (by decide) (by decide)).2 noPaths 12 (by decide) (by decide)

/-- C2 (amended): for every member of a group of two or more parallel
edges whose stored path has at least two points, the separator translates
every point of the path — the first and last points included — by the
member's perpendicular offset; the endpoints therefore move whenever the
offset is non-zero (they are preserved only for a member with offset
multiplier zero, such as the middle member of an odd-sized group). -/
theorem separator_shifts_endpoints (edges : List REdge)
    (edgePaths : String → Option (List Pt)) (sep : ℚ) (e : REdge)
    (p0 p1 : Pt) (rest : List Pt)
    (hid : (edges.map REdge.id).Nodup) (he : e ∈ edges)
    (hlen : 2 ≤ (grpOf edges e).length)
    (hpath : edgePaths e.id = some (p0 :: p1 :: rest)) :
    ∀ off : Pt, off = calculatePerpendicularOffset p0 p1
        ((((grpOf edges e).indexOf e : ℚ) -
          (((grpOf edges e).length : ℚ) - 1) / 2) * sep) →
      (separateParallelEdges edges edgePaths sep).lookup e.id =
        some (offsetPath (p0 :: p1 :: rest) off) ∧
      (offsetPath (p0 :: p1 :: rest) off).head? =
        some ⟨p0.x + off.x, p0.y + off.y⟩ ∧
      (offsetPath (p0 :: p1 :: rest) off).getLast? =
        ((p0 :: p1 :: rest).getLast?).map fun p =>
          (⟨p.x + off.x, p.y + off.y⟩ : Pt) := by
  intro off hoff
  refine ⟨?_, ?_, ?_⟩
  · rw [lookup_separateParallelEdges edges edgePaths sep e hid he,
      if_neg (by omega : ¬ (grpOf edges e).length = 1)]
    unfold multiVal
    rw [hpath, hoff]
  · rw [hoff]
    rfl
  · rw [offsetPath]
    exact List.getLast?_map _ _

/-- Paths for the C2 counterexample: the two parallel `A → B` edges both
run straight from `(0,0)` to `(10,0)`. -/
def cexPaths : String → Option (List Pt) := fun i =>
  if i = "e1" then some [⟨0, 0⟩, ⟨10, 0⟩]
  else if i = "e3" then some [⟨0, 0⟩, ⟨10, 0⟩] else none

/-- C2 counterexample: with two parallel edges sharing the path
`[(0,0), (10,0)]` and separation 12, the separator stores
`[(0,-6), (10,-6)]` for the first member — its first point `(0,-6)` is not
the input first point `(0,0)`, so the endpoints are not preserved. -/
theorem separator_endpoint_cex :
    (separateParallelEdges [cexRE1, cexRE3] cexPaths 12).lookup "e1" =
      some [⟨0, -6⟩, ⟨10, -6⟩] ∧
    ((⟨0, -6⟩ : Pt) ≠ (⟨0, 0⟩ : Pt)) := by
  constructor
  · have h := lookup_separateParallelEdges [cexRE1, cexRE3] cexPaths 12 cexRE1
      (by decide) (by decide)
    rw [if_neg (by decide)] at h
    rw [show "e1" = cexRE1.id from rfl, h]
    have hgrp : grpOf [cexRE1, cexRE3] cexRE1 = [cexRE1, cexRE3] := by decide
    have hidx : (grpOf [cexRE1, cexRE3] cexRE1).indexOf cexRE1 = 0 := by decide
    have hlen2 : (grpOf [cexRE1, cexRE3] cexRE1).length = 2 := by decide
    unfold multiVal
    rw [show cexPaths cexRE1.id = some [⟨0, 0⟩, ⟨10, 0⟩] from by decide]
    rw [hidx, hlen2]
    have hsqrt : Rat.sqrt (((10:ℚ) - 0) * ((10:ℚ) - 0) + ((0:ℚ) - 0) * ((0:ℚ) - 0)) = 10 := by
      rw [show (((10:ℚ) - 0) * ((10:ℚ) - 0) + ((0:ℚ) - 0) * ((0:ℚ) - 0)) = 10 * 10 by norm_num,
        Rat.sqrt_eq]
      norm_num
    simp only [calculatePerpendicularOffset, offsetPath, hsqrt, List.map_cons, List.map_nil]
    norm_num
  · intro hc
    have : ((-6 : ℚ)) = 0 := congrArg Pt.y hc
    norm_num at this

/-- Witness for the amended C2 theorem at the counterexample input: the
first member of the two-edge group gets its whole path, endpoints
included, translated by its perpendicular offset. -/
theorem separator_shifts_endpoints_witness :
    (separateParallelEdges [cexRE1, cexRE3] cexPaths 12).lookup cexRE1.id =
      some (offsetPath [⟨0, 0⟩, ⟨10, 0⟩]
        (calculatePerpendicularOffset ⟨0, 0⟩ ⟨10, 0⟩
          ((((grpOf [cexRE1, cexRE3] cexRE1).indexOf cexRE1 : ℚ) -
            (((grpOf [cexRE1, cexRE3] cexRE1).length : ℚ) - 1) / 2) * 12))) := by
  exact (separator_shifts_endpoints [cexRE1, cexRE3] cexPaths 12 cexRE1
    ⟨0, 0⟩ ⟨10, 0⟩ [] (by decide) (by decide) (by decide) (by decide)
    _ rfl).1

end Router

namespace Router

/-- The `GRID_CELL_SIZE` constant of `src/lib/orthogonalRouter.ts`. Every
construction site of `SpatialGrid` uses this default cell size, so the
embedding fixes it. -/
def GRID_CELL_SIZE : ℚ := 30

/-- A grid cell. The JS obstacle set keys cells by the string `x,y` — an
injective encoding of the integer pair — so the embedding stores the pairs
themselves. -/
structure Gpt where
  x : ℤ
  y : ℤ
deriving DecidableEq

/-- The `SpatialGrid` of `src/lib/orthogonalRouter.ts`, reduced to the data
the path search reads: the set of blocked cells. -/
structure SpatialGrid where
  obstacles : List Gpt

/-- `SpatialGrid.isWalkable`: a cell not in the obstacle set. -/
def isWalkable (grid : SpatialGrid) (x y : ℤ) : Bool :=
  !(grid.obstacles.contains ⟨x, y⟩)

/-- `SpatialGrid.worldToGrid`: floor-divide world coordinates by the cell
size. -/
def worldToGrid (p : Pt) : Gpt :=
  ⟨⌊p.x / GRID_CELL_SIZE⌋, ⌊p.y / GRID_CELL_SIZE⌋⟩

/-- `SpatialGrid.gridToWorld`: the world coordinates of a cell's center. -/
def gridToWorld (p : Gpt) : Pt :=
  ⟨p.x * GRID_CELL_SIZE + GRID_CELL_SIZE / 2,
   p.y * GRID_CELL_SIZE + GRID_CELL_SIZE / 2⟩

/-- `manhattanDistance` (`src/lib/orthogonalRouter.ts`), applied by the
search to grid cells: `|ax - bx| + |ay - by|`. -/
def manhattanDistance (a b : Gpt) : ℕ :=
  (a.x - b.x).natAbs + (a.y - b.y).natAbs

/-- The `PathNode` record of the A* search: cell coordinates, cost from the
start `g`, heuristic `h`, total `f`, and the parent pointer used for path
reconstruction. -/
inductive PathNode : Type where
  | mk (x y : ℤ) (g h f : ℕ) (parent : Option PathNode)

def PathNode.x : PathNode → ℤ
  | .mk x _ _ _ _ _ => x

def PathNode.y : PathNode → ℤ
  | .mk _ y _ _ _ _ => y

def PathNode.g : PathNode → ℕ
  | .mk _ _ g _ _ _ => g

def PathNode.h : PathNode → ℕ
  | .mk _ _ _ h _ _ => h

def PathNode.f : PathNode → ℕ
  | .mk _ _ _ _ f _ => f

def PathNode.parent : PathNode → Option PathNode
  | .mk _ _ _ _ _ parent => parent

/-- Stable insertion of a node into an f-sorted list: placed after every
node of equal or smaller f, as JS's stable `sort((a, b) => a.f - b.f)`
keeps earlier-inserted equal-f nodes first. -/
def insertByF (n : PathNode) : List PathNode → List PathNode
  | [] => [n]
  | m :: ms => if m.f ≤ n.f then m :: insertByF n ms else n :: m :: ms

/-- The `openSet.sort((a, b) => a.f - b.f)` call: a stable ascending sort
by f. A stable sort's output is unique, realised here as insertion sort. -/
def sortByF (l : List PathNode) : List PathNode :=
  l.foldl (fun acc n => insertByF n acc) []

/-- The four 4-neighborhood directions of the A* search, in source order
North, East, South, West. -/
def directions : List (ℤ × ℤ) := [(0, -1), (1, 0), (0, 1), (-1, 0)]

/-- The `openSetMap.get` lookup. The code keeps `openSetMap` as the keyed
view of `openSet` (set on push, deleted on shift, mutated in place
together), so the embedding searches the open list itself. -/
def findOpen (openl : List PathNode) (x y : ℤ) : Option PathNode :=
  openl.find? fun m => m.x == x && m.y == y

/-- One neighbor-direction iteration of the A* loop body: skip closed or
blocked cells, push an undiscovered neighbor, or relax an open one in
place when the new g-score is strictly smaller. -/
def relaxStep (grid : SpatialGrid) (endGrid : Gpt) (current : PathNode)
    (closed : List Gpt) (openl : List PathNode) (d : ℤ × ℤ) : List PathNode :=
  let nx := current.x + d.1
  let ny := current.y + d.2
  if closed.contains ⟨nx, ny⟩ || !(isWalkable grid nx ny) then openl
  else
    let gScore := current.g + 1
    match findOpen openl nx ny with
    | none =>
      let h := manhattanDistance ⟨nx, ny⟩ endGrid
      openl ++ [⟨nx, ny, gScore, h, gScore + h, some current⟩]
    | some m =>
      if gScore < m.g then
        openl.map fun m2 =>
          if m2.x == nx && m2.y == ny then
            ⟨nx, ny, gScore, m2.h, gScore + m2.h, some current⟩
          else m2
      else openl

/-- The `maxIterations` bound of the A* loop. -/
def maxIterations : ℕ := 10000

/-- The A* `while` loop of `findOrthogonalPath`, fueled by the iteration
budget: sort the open list, pop the lowest-f node, close it, stop on the
goal, otherwise relax its four neighbors. Returns the goal node when
reached, `none` when the open set empties or the budget runs out. -/
def astarLoop (grid : SpatialGrid) (endGrid : Gpt) :
    ℕ → List PathNode → List Gpt → Option PathNode
  | 0, _, _ => none
  | fuel + 1, openl, closed =>
    match sortByF openl with
    | [] => none
    | current :: rest =>
      let closed2 := closed ++ [⟨current.x, current.y⟩]
      if current.x == endGrid.x && current.y == endGrid.y then some current
      else
        astarLoop grid endGrid fuel
          (directions.foldl (relaxStep grid endGrid current closed2) rest) closed2

/-- Walking the parent pointers from the goal back to the start while
unshifting, as the reconstruction loop does: the cell trail in start-to-
goal order. -/
def PathNode.trail : PathNode → List Gpt
  | .mk x y _ _ _ parent =>
    (match parent with
     | some p => p.trail
     | none => []) ++ [⟨x, y⟩]

/-- The `path[0] = start; path[path.length - 1] = end` endpoint fix-up of
the reconstructed path. -/
def replaceEnds (path : List Pt) (start endP : Pt) : List Pt :=
  if path.length > 0 then (path.set 0 start).set (path.length - 1) endP
  else path

/-- Shallow embedding of `findOrthogonalPath`
(`src/lib/orthogonalRouter.ts`): fall back to the direct two-point path
when an endpoint cell is blocked or when the bounded A* search does not
reach the goal; otherwise reconstruct the grid path and replace its first
and last points with the exact endpoints. The embedding is a total
function — no input can make it throw. -/
def findOrthogonalPath (start endP : Pt) (grid : SpatialGrid) : List Pt :=
  let startGrid := worldToGrid start
  let endGrid := worldToGrid endP
  if !(isWalkable grid startGrid.x startGrid.y) ||
     !(isWalkable grid endGrid.x endGrid.y) then
    [start, endP]
  else
    let h0 := manhattanDistance startGrid endGrid
    match astarLoop grid endGrid maxIterations
      [⟨startGrid.x, startGrid.y, 0, h0, h0, none⟩] [] with
    | some goalNode => replaceEnds (goalNode.trail.map gridToWorld) start endP
    | none => [start, endP]

end Router

namespace Router

/-- C5: whenever the start or the end grid cell is blocked, or the bounded
A* search (iteration budget 10000) ends without reaching the goal, the
router returns exactly the direct two-point path `[start, end]`. The
embedding is a total function, so no such input throws to the caller. -/
theorem findOrthogonalPath_fallback (start endP : Pt) (grid : SpatialGrid)
    (h : isWalkable grid (worldToGrid start).x (worldToGrid start).y = false ∨
      isWalkable grid (worldToGrid endP).x (worldToGrid endP).y = false ∨
      astarLoop grid (worldToGrid endP) maxIterations
        [⟨(worldToGrid start).x, (worldToGrid start).y, 0,
          manhattanDistance (worldToGrid start) (worldToGrid endP),
          manhattanDistance (worldToGrid start) (worldToGrid endP), none⟩]
        [] = none) :
    findOrthogonalPath start endP grid = [start, endP] := by
  unfold findOrthogonalPath
  rcases h with h | h | h
  · rw [if_pos (by simp [h])]
  · rw [if_pos (by simp [h])]
  · by_cases hb : (!(isWalkable grid (worldToGrid start).x (worldToGrid start).y) ||
        !(isWalkable grid (worldToGrid endP).x (worldToGrid endP).y)) = true
    · rw [if_pos hb]
    · rw [if_neg hb]
      simp only [h]

/-- Grid for the C5 witness: the single cell `(0, 0)` is blocked. -/
def wGrid : SpatialGrid := ⟨[⟨0, 0⟩]⟩

/-- Witness for C5: the start point `(0,0)` falls into the blocked cell
`(0,0)`, so the router returns the direct segment. -/
theorem findOrthogonalPath_fallback_witness :
    findOrthogonalPath ⟨0, 0⟩ ⟨100, 100⟩ wGrid = [⟨0, 0⟩, ⟨100, 100⟩] := by
  refine findOrthogonalPath_fallback ⟨0, 0⟩ ⟨100, 100⟩ wGrid (Or.inl ?_)
  have h1 : worldToGrid ⟨0, 0⟩ = ⟨0, 0⟩ := by
    simp [worldToGrid, GRID_CELL_SIZE]
  rw [h1]
  decide

end Router

namespace Router

theorem gpt_eq (a b : Gpt) (hx : a.x = b.x) (hy : a.y = b.y) : a = b := by
  cases a
  cases b
  simp_all

theorem manhattan_triangle (a b c : Gpt) :
    manhattanDistance a c ≤ manhattanDistance a b + manhattanDistance b c := by
  unfold manhattanDistance
  omega

theorem manhattan_comm (a b : Gpt) :
    manhattanDistance a b = manhattanDistance b a := by
  unfold manhattanDistance
  omega

theorem manhattan_self (a : Gpt) : manhattanDistance a a = 0 := by
  unfold manhattanDistance
  omega

/-- The straight L-shaped minimal route from `S` to `E`: first walk the x
span, then the y span; `monoCell S E k` is its k-th cell. -/
def monoCell (S E : Gpt) (k : ℕ) : Gpt :=
  let dx := (E.x - S.x).natAbs
  if k ≤ dx then
    ⟨S.x + (if S.x ≤ E.x then (k : ℤ) else -(k : ℤ)), S.y⟩
  else
    ⟨E.x, S.y + (if S.y ≤ E.y then ((k - dx : ℕ) : ℤ) else -((k - dx : ℕ) : ℤ))⟩

theorem monoCell_zero (S E : Gpt) : monoCell S E 0 = S := by
  simp only [monoCell]
  refine gpt_eq _ _ ?_ ?_ <;> split_ifs <;> dsimp only <;> omega

theorem monoCell_last (S E : Gpt) :
    monoCell S E (manhattanDistance S E) = E := by
  simp only [monoCell, manhattanDistance]
  refine gpt_eq _ _ ?_ ?_ <;> split_ifs <;> dsimp only <;> omega

theorem monoCell_dist_start (S E : Gpt) (k : ℕ)
    (hk : k ≤ manhattanDistance S E) :
    manhattanDistance S (monoCell S E k) = k := by
  simp only [monoCell, manhattanDistance] at hk ⊢
  split_ifs <;> dsimp only at hk ⊢ <;> omega

theorem monoCell_dist_end (S E : Gpt) (k : ℕ)
    (hk : k ≤ manhattanDistance S E) :
    manhattanDistance (monoCell S E k) E = manhattanDistance S E - k := by
  simp only [monoCell, manhattanDistance] at hk ⊢
  split_ifs <;> dsimp only at hk ⊢ <;> omega

theorem monoCell_adj (S E : Gpt) (k : ℕ)
    (hk : k < manhattanDistance S E) :
    manhattanDistance (monoCell S E k) (monoCell S E (k + 1)) = 1 := by
  simp only [monoCell, manhattanDistance] at hk ⊢
  split_ifs <;> dsimp only at hk ⊢ <;> omega

theorem monoCell_in_rect (S E : Gpt) (k : ℕ)
    (hk : k ≤ manhattanDistance S E) :
    min S.x E.x ≤ (monoCell S E k).x ∧ (monoCell S E k).x ≤ max S.x E.x ∧
    min S.y E.y ≤ (monoCell S E k).y ∧ (monoCell S E k).y ≤ max S.y E.y := by
  simp only [monoCell, manhattanDistance] at hk ⊢
  split_ifs <;> dsimp only at hk ⊢ <;> omega

theorem monoCell_inj (S E : Gpt) (i j : ℕ)
    (hi : i ≤ manhattanDistance S E) (hj : j ≤ manhattanDistance S E)
    (h : monoCell S E i = monoCell S E j) : i = j := by
  have h1 := monoCell_dist_start S E i hi
  have h2 := monoCell_dist_start S E j hj
  rw [h] at h1
  omega

/-- A cell at Manhattan distance 1 is reached by one of the four search
directions. -/
theorem adj_exists_dir (a b : Gpt) (h : manhattanDistance a b = 1) :
    ∃ d ∈ directions, b = (⟨a.x + d.1, a.y + d.2⟩ : Gpt) := by
  unfold manhattanDistance at h
  rcases (show (b.x = a.x + 1 ∧ b.y = a.y) ∨ (b.x = a.x - 1 ∧ b.y = a.y) ∨
      (b.y = a.y + 1 ∧ b.x = a.x) ∨ (b.y = a.y - 1 ∧ b.x = a.x) by omega) with
    ⟨h1, h2⟩ | ⟨h1, h2⟩ | ⟨h1, h2⟩ | ⟨h1, h2⟩
  · exact ⟨(1, 0), by simp [directions], gpt_eq _ _ (by simpa using h1) (by simpa using h2)⟩
  · exact ⟨(-1, 0), by simp [directions], gpt_eq _ _ (by simp; omega) (by simpa using h2)⟩
  · exact ⟨(0, 1), by simp [directions], gpt_eq _ _ (by simpa using h2) (by simpa using h1)⟩
  · exact ⟨(0, -1), by simp [directions], gpt_eq _ _ (by simpa using h2) (by simp; omega)⟩

theorem floor_center (z : ℤ) : ⌊((z : ℚ) * 30 + 30 / 2) / 30⌋ = z := by
  rw [show ((z : ℚ) * 30 + 30 / 2) / 30 = (z : ℚ) + 1 / 2 from by ring,
    add_comm, Int.floor_add_int]
  norm_num

/-- The floor-division roundtrip: the cell center of `c` maps back to `c`. -/
theorem worldToGrid_gridToWorld (c : Gpt) : worldToGrid (gridToWorld c) = c := by
  unfold worldToGrid gridToWorld GRID_CELL_SIZE
  exact gpt_eq _ _ (floor_center c.x) (floor_center c.y)

end Router

namespace Router

theorem insertByF_perm (n : PathNode) (l : List PathNode) :
    (insertByF n l).Perm (n :: l) := by
  induction l with
  | nil => rfl
  | cons m ms ih =>
    unfold insertByF
    by_cases hf : m.f ≤ n.f
    · rw [if_pos hf]
      exact (ih.cons m).trans (List.Perm.swap n m ms)
    · rw [if_neg hf]

theorem foldl_insert_perm (l : List PathNode) :
    ∀ acc : List PathNode,
      (l.foldl (fun a n => insertByF n a) acc).Perm (acc ++ l) := by
  induction l with
  | nil => intro acc; simp
  | cons n l ih =>
    intro acc
    rw [List.foldl_cons]
    refine (ih (insertByF n acc)).trans ?_
    refine (List.Perm.append_right l (insertByF_perm n acc)).trans ?_
    exact List.perm_middle.symm

theorem sortByF_perm (l : List PathNode) : (sortByF l).Perm l := by
  simpa [sortByF] using foldl_insert_perm l []

theorem mem_insertByF (x n : PathNode) (l : List PathNode) :
    x ∈ insertByF n l ↔ x = n ∨ x ∈ l := by
  rw [(insertByF_perm n l).mem_iff]
  simp

theorem insertByF_pairwise (n : PathNode) (l : List PathNode)
    (h : l.Pairwise fun a b => a.f ≤ b.f) :
    (insertByF n l).Pairwise fun a b => a.f ≤ b.f := by
  induction l with
  | nil => simp [insertByF]
  | cons m ms ih =>
    rw [List.pairwise_cons] at h
    unfold insertByF
    by_cases hf : m.f ≤ n.f
    · rw [if_pos hf]
      rw [List.pairwise_cons]
      refine ⟨?_, ih h.2⟩
      intro x hx
      rcases (mem_insertByF x n ms).1 hx with rfl | hx
      · exact hf
      · exact h.1 x hx
    · rw [if_neg hf]
      rw [List.pairwise_cons]
      refine ⟨?_, List.pairwise_cons.2 h⟩
      intro x hx
      rcases List.mem_cons.1 hx with rfl | hx
      · omega
      · exact le_trans (by omega) (h.1 x hx)

theorem sortByF_pairwise (l : List PathNode) :
    (sortByF l).Pairwise fun a b => a.f ≤ b.f := by
  have main : ∀ (l acc : List PathNode),
      (acc.Pairwise fun a b => a.f ≤ b.f) →
      ((l.foldl (fun a n => insertByF n a) acc).Pairwise fun a b => a.f ≤ b.f) := by
    intro l
    induction l with
    | nil => intro acc h; simpa using h
    | cons n l ih =>
      intro acc h
      rw [List.foldl_cons]
      exact ih _ (insertByF_pairwise n acc h)
  exact main l [] (by simp)

theorem sortByF_head_min (l : List PathNode) (c : PathNode)
    (r : List PathNode) (hs : sortByF l = c :: r) (n : PathNode) (hn : n ∈ l) :
    c.f ≤ n.f := by
  have hmem : n ∈ sortByF l := (sortByF_perm l).mem_iff.2 hn
  rw [hs] at hmem
  rcases List.mem_cons.1 hmem with rfl | hmem
  · exact le_refl _
  · have hp := sortByF_pairwise l
    rw [hs, List.pairwise_cons] at hp
    exact hp.1 n hmem

end Router

namespace Router

/-- The grid cell of a search node. -/
def PathNode.cell (n : PathNode) : Gpt := ⟨n.x, n.y⟩

/-- Well-formed search nodes: the heuristic is the Manhattan distance to
the goal, `f = g + h`, and the parent chain is a unit-step walk from the
start cell with `g` counting its length. -/
def WF (S E : Gpt) : PathNode → Prop
  | .mk x y g h f parent =>
    h = manhattanDistance ⟨x, y⟩ E ∧ f = g + h ∧
    match parent with
    | none => x = S.x ∧ y = S.y ∧ g = 0
    | some p => WF S E p ∧ manhattanDistance ⟨x, y⟩ ⟨p.x, p.y⟩ = 1 ∧ g = p.g + 1

theorem wf_h (S E : Gpt) (n : PathNode) (hw : WF S E n) :
    n.h = manhattanDistance n.cell E := by
  cases n with
  | mk x y g h f parent =>
    cases parent with
    | none =>
      obtain ⟨h1, -⟩ := hw
      exact h1
    | some p =>
      obtain ⟨h1, -⟩ := hw
      exact h1

theorem wf_f (S E : Gpt) (n : PathNode) (hw : WF S E n) :
    n.f = n.g + n.h := by
  cases n with
  | mk x y g h f parent =>
    cases parent with
    | none =>
      obtain ⟨-, h2, -⟩ := hw
      exact h2
    | some p =>
      obtain ⟨-, h2, -⟩ := hw
      exact h2

theorem wf_g_ge (S E : Gpt) :
    ∀ n : PathNode, WF S E n → manhattanDistance S n.cell ≤ n.g
  | .mk x y g h f none => by
    intro hw
    obtain ⟨-, -, hx, hy, hg⟩ := hw
    have hcell : (PathNode.mk x y g h f none).cell = S := by
      unfold PathNode.cell
      exact gpt_eq _ _ hx hy
    rw [hcell, manhattan_self]
    omega
  | .mk x y g h f (some p) => by
    intro hw
    obtain ⟨-, -, hp, hadj, hg⟩ := hw
    have ih := wf_g_ge S E p hp
    have htri := manhattan_triangle S p.cell (PathNode.mk x y g h f (some p)).cell
    have hd : manhattanDistance p.cell (PathNode.mk x y g h f (some p)).cell = 1 := by
      rw [manhattan_comm]
      exact hadj
    show manhattanDistance S ⟨x, y⟩ ≤ g
    have hgoal : manhattanDistance S (PathNode.mk x y g h f (some p)).cell ≤ p.g + 1 := by
      omega
    simpa [hg] using hgoal

/-- The cost of a grid-cell trail: the sum of the Manhattan distances of
consecutive cells. -/
def gcost : List Gpt → ℕ
  | a :: b :: rest => manhattanDistance a b + gcost (b :: rest)
  | _ => 0

theorem gcost_concat :
    ∀ (l : List Gpt) (c last : Gpt), l.getLast? = some last →
      gcost (l ++ [c]) = gcost l + manhattanDistance last c
  | [], _, _ => by intro h; simp at h
  | [a], c, last => by
    intro h
    simp only [List.getLast?_singleton, Option.some.injEq] at h
    subst h
    simp [gcost]
  | a :: b :: l, c, last => by
    intro h
    have hlast : (b :: l).getLast? = some last := by
      simpa using h
    have ih := gcost_concat (b :: l) c last hlast
    show gcost (a :: b :: (l ++ [c])) = gcost (a :: b :: l) + _
    rw [show gcost (a :: b :: (l ++ [c])) =
        manhattanDistance a b + gcost (b :: (l ++ [c])) from rfl]
    rw [show (b :: (l ++ [c])) = (b :: l) ++ [c] from rfl, ih]
    rw [show gcost (a :: b :: l) = manhattanDistance a b + gcost (b :: l) from rfl]
    omega

theorem trail_spec (S E : Gpt) :
    ∀ n : PathNode, WF S E n →
      n.trail.head? = some S ∧ n.trail.getLast? = some n.cell ∧
        gcost n.trail = n.g
  | .mk x y g h f none => by
    intro hw
    obtain ⟨-, -, hx, hy, hg⟩ := hw
    have hcell : (PathNode.mk x y g h f none).cell = S :=
      gpt_eq _ _ hx hy
    have htrail : (PathNode.mk x y g h f none).trail =
        [(PathNode.mk x y g h f none).cell] := rfl
    rw [htrail, hcell]
    refine ⟨rfl, ?_, ?_⟩
    · rw [← hcell]
      rfl
    · show gcost [S] = g
      rw [show gcost [S] = 0 from rfl]
      omega
  | .mk x y g h f (some p) => by
    intro hw
    obtain ⟨-, -, hp, hadj, hg⟩ := hw
    obtain ⟨ihhead, ihlast, ihcost⟩ := trail_spec S E p hp
    have htrail : (PathNode.mk x y g h f (some p)).trail =
        p.trail ++ [(⟨x, y⟩ : Gpt)] := rfl
    have hne : p.trail ≠ [] := by
      intro hnil
      rw [hnil] at ihlast
      exact Option.noConfusion ihlast
    refine ⟨?_, ?_, ?_⟩
    · rw [htrail]
      rcases hpt : p.trail with _ | ⟨t0, ts⟩
      · exact absurd hpt hne
      · rw [hpt] at ihhead
        simpa using ihhead
    · rw [htrail]
      simp only [List.getLast?_concat]
      rfl
    · rw [htrail, gcost_concat p.trail _ p.cell ihlast, ihcost]
      have hd : manhattanDistance p.cell (⟨x, y⟩ : Gpt) = 1 := by
        rw [manhattan_comm]
        exact hadj
      show p.g + manhattanDistance p.cell (⟨x, y⟩ : Gpt) = g
      omega

end Router

namespace Router

/-- The open/closed bookkeeping invariant of the A* loop: all open nodes
are well-formed, open cells are distinct, and no open cell is closed. -/
def OpenOK (S E : Gpt) (openl : List PathNode) (closed : List Gpt) : Prop :=
  (∀ n ∈ openl, WF S E n) ∧ (openl.map PathNode.cell).Nodup ∧
    ∀ n ∈ openl, n.cell ∉ closed

theorem cells_nodup_eq (openl : List PathNode)
    (hnd : (openl.map PathNode.cell).Nodup) :
    ∀ m ∈ openl, ∀ n ∈ openl, m.cell = n.cell → m = n := by
  induction openl with
  | nil => simp
  | cons a l ih =>
    intro m hm n hn hmn
    have hnd2 : (a.cell :: l.map PathNode.cell).Nodup := by simpa using hnd
    rcases List.mem_cons.1 hm with hma | hml <;> rcases List.mem_cons.1 hn with hna | hnl
    · rw [hma, hna]
    · subst hma
      exact absurd (by rw [hmn]; exact List.mem_map.2 ⟨n, hnl, rfl⟩)
        (List.nodup_cons.1 hnd2).1
    · subst hna
      exact absurd (by rw [← hmn]; exact List.mem_map.2 ⟨m, hml, rfl⟩)
        (List.nodup_cons.1 hnd2).1
    · exact ih (List.nodup_cons.1 hnd2).2 m hml n hnl hmn

theorem dir_adj (c : Gpt) (d : ℤ × ℤ) (hd : d ∈ directions) :
    manhattanDistance (⟨c.x + d.1, c.y + d.2⟩ : Gpt) c = 1 := by
  fin_cases hd <;> (unfold manhattanDistance; dsimp only; omega)

theorem findOpen_none_spec (openl : List PathNode) (nx ny : ℤ)
    (h : findOpen openl nx ny = none) :
    ∀ m ∈ openl, m.cell ≠ (⟨nx, ny⟩ : Gpt) := by
  intro m hm hc
  have hall := List.find?_eq_none.1 h m hm
  apply hall
  have hx : m.x = nx := congrArg Gpt.x hc
  have hy : m.y = ny := congrArg Gpt.y hc
  simp [hx, hy]

theorem findOpen_some_spec (openl : List PathNode) (nx ny : ℤ) (m : PathNode)
    (h : findOpen openl nx ny = some m) :
    m ∈ openl ∧ m.cell = (⟨nx, ny⟩ : Gpt) := by
  refine ⟨List.mem_of_find?_eq_some h, ?_⟩
  have hp := List.find?_some h
  simp only [Bool.and_eq_true, beq_iff_eq] at hp
  exact gpt_eq _ _ hp.1 hp.2

theorem cell_eq_of_beq (m2 : PathNode) (nx ny : ℤ)
    (h : (m2.x == nx && m2.y == ny) = true) : m2.cell = (⟨nx, ny⟩ : Gpt) := by
  simp only [Bool.and_eq_true, beq_iff_eq] at h
  exact gpt_eq _ _ h.1 h.2

theorem beq_of_cell_eq (m2 : PathNode) (nx ny : ℤ)
    (h : m2.cell = (⟨nx, ny⟩ : Gpt)) : (m2.x == nx && m2.y == ny) = true := by
  have hx : m2.x = nx := congrArg Gpt.x h
  have hy : m2.y = ny := congrArg Gpt.y h
  simp [hx, hy]

theorem beq_false_of_cell_ne (m2 : PathNode) (nx ny : ℤ)
    (h : m2.cell ≠ (⟨nx, ny⟩ : Gpt)) : (m2.x == nx && m2.y == ny) = false := by
  rcases hb : (m2.x == nx && m2.y == ny) with _ | _
  · rfl
  · exact absurd (cell_eq_of_beq m2 nx ny hb) h

/-- The updated-in-place map of the relaxation branch leaves every cell in
place. -/
theorem map_update_cells (openl : List PathNode) (nx ny : ℤ) (w : PathNode)
    (hw : w.cell = (⟨nx, ny⟩ : Gpt)) :
    ((openl.map fun m2 => if m2.x == nx && m2.y == ny then w else m2).map
        PathNode.cell) = openl.map PathNode.cell := by
  rw [List.map_map]
  refine List.map_congr_left ?_
  intro m2 _
  show PathNode.cell (if m2.x == nx && m2.y == ny then w else m2) = m2.cell
  rcases hb : (m2.x == nx && m2.y == ny) with _ | _
  · simp
  · rw [if_pos rfl, hw]
    exact (cell_eq_of_beq m2 nx ny hb).symm

end Router

namespace Router

theorem map_update_cells2 (openl : List PathNode) (nx ny : ℤ) (gS : ℕ)
    (current : PathNode) :
    ((openl.map fun m2 => if m2.x == nx && m2.y == ny then
        PathNode.mk nx ny gS m2.h (gS + m2.h) (some current) else m2).map
      PathNode.cell) = openl.map PathNode.cell := by
  rw [List.map_map]
  refine List.map_congr_left ?_
  intro m2 _
  show PathNode.cell (if m2.x == nx && m2.y == ny then
      PathNode.mk nx ny gS m2.h (gS + m2.h) (some current) else m2) = m2.cell
  rcases hb : (m2.x == nx && m2.y == ny) with _ | _
  · simp
  · rw [if_pos rfl]
    exact (cell_eq_of_beq m2 nx ny hb).symm

theorem relaxStep_OK (grid : SpatialGrid) (S E : Gpt) (current : PathNode)
    (closed : List Gpt) (openl : List PathNode) (d : ℤ × ℤ)
    (hcur : WF S E current) (hd : d ∈ directions)
    (hOK : OpenOK S E openl closed) :
    OpenOK S E (relaxStep grid E current closed openl d) closed := by
  obtain ⟨hWF, hnd, hclo⟩ := hOK
  simp only [relaxStep]
  by_cases hguard : (closed.contains ⟨current.x + d.1, current.y + d.2⟩ ||
      !(isWalkable grid (current.x + d.1) (current.y + d.2))) = true
  · rw [if_pos hguard]
    exact ⟨hWF, hnd, hclo⟩
  · rw [if_neg hguard]
    have hnc : (⟨current.x + d.1, current.y + d.2⟩ : Gpt) ∉ closed := by
      intro hmem
      exact hguard (by simp [hmem])
    have hadj : manhattanDistance (⟨current.x + d.1, current.y + d.2⟩ : Gpt)
        (⟨current.x, current.y⟩ : Gpt) = 1 := dir_adj ⟨current.x, current.y⟩ d hd
    rcases hf : findOpen openl (current.x + d.1) (current.y + d.2) with _ | m
    · refine ⟨?_, ?_, ?_⟩
      · intro n hn
        rcases List.mem_append.1 hn with hn | hn
        · exact hWF n hn
        · have hn2 : n = PathNode.mk (current.x + d.1) (current.y + d.2)
              (current.g + 1)
              (manhattanDistance ⟨current.x + d.1, current.y + d.2⟩ E)
              (current.g + 1 +
                manhattanDistance ⟨current.x + d.1, current.y + d.2⟩ E)
              (some current) := by simpa using hn
          subst hn2
          exact ⟨rfl, rfl, hcur, hadj, rfl⟩
      · rw [List.map_append, List.map_cons, List.map_nil]
        refine List.nodup_append.2 ⟨hnd, List.nodup_singleton _, ?_⟩
        intro a ha hb
        rcases List.mem_map.1 ha with ⟨m2, hm2, hcell⟩
        have ha2 : a = (⟨current.x + d.1, current.y + d.2⟩ : Gpt) := by
          simpa [PathNode.cell] using hb
        exact findOpen_none_spec openl _ _ hf m2 hm2 (by rw [hcell, ha2])
      · intro n hn
        rcases List.mem_append.1 hn with hn | hn
        · exact hclo n hn
        · have hn2 : n.cell = (⟨current.x + d.1, current.y + d.2⟩ : Gpt) := by
            have hn3 : n = PathNode.mk (current.x + d.1) (current.y + d.2)
                (current.g + 1)
                (manhattanDistance ⟨current.x + d.1, current.y + d.2⟩ E)
                (current.g + 1 +
                  manhattanDistance ⟨current.x + d.1, current.y + d.2⟩ E)
                (some current) := by simpa using hn
            rw [hn3]
            rfl
          rw [hn2]
          exact hnc
    · dsimp only
      by_cases hup : current.g + 1 < m.g
      · rw [if_pos hup]
        refine ⟨?_, ?_, ?_⟩
        · intro n hn
          rcases List.mem_map.1 hn with ⟨m2, hm2, himg⟩
          rcases hb : (m2.x == current.x + d.1 && m2.y == current.y + d.2)
            with _ | _
          · rw [← himg, if_neg (by simp [hb])]
            exact hWF m2 hm2
          · rw [← himg, if_pos hb]
            have hm2cell := cell_eq_of_beq m2 _ _ hb
            have hm2h := wf_h S E m2 (hWF m2 hm2)
            refine ⟨?_, rfl, hcur, hadj, rfl⟩
            rw [hm2h, hm2cell]
        · rw [map_update_cells2]
          exact hnd
        · intro n hn
          rcases List.mem_map.1 hn with ⟨m2, hm2, himg⟩
          rcases hb : (m2.x == current.x + d.1 && m2.y == current.y + d.2)
            with _ | _
          · rw [← himg, if_neg (by simp [hb])]
            exact hclo m2 hm2
          · rw [← himg, if_pos hb]
            have : PathNode.cell (PathNode.mk (current.x + d.1)
                (current.y + d.2) (current.g + 1) m2.h
                (current.g + 1 + m2.h) (some current)) =
                (⟨current.x + d.1, current.y + d.2⟩ : Gpt) := rfl
            rw [this]
            exact hnc
      · rw [if_neg hup]
        exact ⟨hWF, hnd, hclo⟩

end Router

namespace Router

theorem relaxStep_mono (grid : SpatialGrid) (E : Gpt) (current : PathNode)
    (closed : List Gpt) (openl : List PathNode) (d : ℤ × ℤ)
    (hnd : (openl.map PathNode.cell).Nodup)
    (t : Gpt) (v : ℕ) (hex : ∃ n ∈ openl, n.cell = t ∧ n.g ≤ v) :
    ∃ n' ∈ relaxStep grid E current closed openl d, n'.cell = t ∧ n'.g ≤ v := by
  obtain ⟨n, hn, hcell, hg⟩ := hex
  simp only [relaxStep]
  by_cases hguard : (closed.contains ⟨current.x + d.1, current.y + d.2⟩ ||
      !(isWalkable grid (current.x + d.1) (current.y + d.2))) = true
  · rw [if_pos hguard]
    exact ⟨n, hn, hcell, hg⟩
  · rw [if_neg hguard]
    rcases hf : findOpen openl (current.x + d.1) (current.y + d.2) with _ | m
    · exact ⟨n, List.mem_append.2 (Or.inl hn), hcell, hg⟩
    · dsimp only
      by_cases hup : current.g + 1 < m.g
      · rw [if_pos hup]
        by_cases hnt : n.cell = (⟨current.x + d.1, current.y + d.2⟩ : Gpt)
        · have hfs := findOpen_some_spec openl _ _ m hf
          have hmn : m = n :=
            cells_nodup_eq openl hnd m hfs.1 n hn (by rw [hfs.2, hnt])
          refine ⟨PathNode.mk (current.x + d.1) (current.y + d.2)
            (current.g + 1) n.h (current.g + 1 + n.h) (some current),
            List.mem_map.2 ⟨n, hn, by rw [if_pos (beq_of_cell_eq n _ _ hnt)]⟩,
            ?_, ?_⟩
          · show (⟨current.x + d.1, current.y + d.2⟩ : Gpt) = t
            rw [← hcell, hnt]
          · have hlt : current.g + 1 < n.g := by rw [← hmn]; exact hup
            show current.g + 1 ≤ v
            omega
        · refine ⟨n, List.mem_map.2 ⟨n, hn, ?_⟩, hcell, hg⟩
          rw [if_neg (by simp [beq_false_of_cell_ne n _ _ hnt])]
      · rw [if_neg hup]
        exact ⟨n, hn, hcell, hg⟩

theorem relaxStep_keep (grid : SpatialGrid) (S E : Gpt) (current : PathNode)
    (closed : List Gpt) (openl : List PathNode) (d : ℤ × ℤ)
    (hd : d ∈ directions)
    (hnd : (openl.map PathNode.cell).Nodup) (hcur : WF S E current)
    (n : PathNode) (hn : n ∈ openl)
    (hgexact : n.g = manhattanDistance S n.cell) :
    n ∈ relaxStep grid E current closed openl d := by
  simp only [relaxStep]
  by_cases hguard : (closed.contains ⟨current.x + d.1, current.y + d.2⟩ ||
      !(isWalkable grid (current.x + d.1) (current.y + d.2))) = true
  · rw [if_pos hguard]
    exact hn
  · rw [if_neg hguard]
    rcases hf : findOpen openl (current.x + d.1) (current.y + d.2) with _ | m
    · exact List.mem_append.2 (Or.inl hn)
    · dsimp only
      by_cases hup : current.g + 1 < m.g
      · rw [if_pos hup]
        by_cases hnt : n.cell = (⟨current.x + d.1, current.y + d.2⟩ : Gpt)
        · exfalso
          have hfs := findOpen_some_spec openl _ _ m hf
          have hmn : m = n :=
            cells_nodup_eq openl hnd m hfs.1 n hn (by rw [hfs.2, hnt])
          have hlt : current.g + 1 < n.g := by rw [← hmn]; exact hup
          have h1 := wf_g_ge S E current hcur
          have h2 := manhattan_triangle S current.cell n.cell
          have h3 : manhattanDistance current.cell n.cell = 1 := by
            rw [hnt, manhattan_comm]
            exact dir_adj ⟨current.x, current.y⟩ d hd
          omega
        · exact List.mem_map.2 ⟨n, hn,
            by rw [if_neg (by simp [beq_false_of_cell_ne n _ _ hnt])]⟩
      · rw [if_neg hup]
        exact hn

end Router

namespace Router

theorem relaxStep_establish (grid : SpatialGrid) (E : Gpt) (current : PathNode)
    (closed : List Gpt) (openl : List PathNode) (d : ℤ × ℤ)
    (hnc : (⟨current.x + d.1, current.y + d.2⟩ : Gpt) ∉ closed)
    (hwalk : isWalkable grid (current.x + d.1) (current.y + d.2) = true) :
    ∃ n' ∈ relaxStep grid E current closed openl d,
      n'.cell = (⟨current.x + d.1, current.y + d.2⟩ : Gpt) ∧
      n'.g ≤ current.g + 1 := by
  simp only [relaxStep]
  rw [if_neg (by simp [hnc, hwalk])]
  rcases hf : findOpen openl (current.x + d.1) (current.y + d.2) with _ | m
  · refine ⟨PathNode.mk (current.x + d.1) (current.y + d.2) (current.g + 1)
      (manhattanDistance ⟨current.x + d.1, current.y + d.2⟩ E)
      (current.g + 1 + manhattanDistance ⟨current.x + d.1, current.y + d.2⟩ E)
      (some current), ?_, rfl, ?_⟩
    · exact List.mem_append.2 (Or.inr (by simp))
    · show current.g + 1 ≤ current.g + 1
      omega
  · dsimp only
    have hfs := findOpen_some_spec openl _ _ m hf
    by_cases hup : current.g + 1 < m.g
    · rw [if_pos hup]
      refine ⟨PathNode.mk (current.x + d.1) (current.y + d.2) (current.g + 1)
        m.h (current.g + 1 + m.h) (some current),
        List.mem_map.2 ⟨m, hfs.1, by rw [if_pos (beq_of_cell_eq m _ _ hfs.2)]⟩,
        rfl, ?_⟩
      show current.g + 1 ≤ current.g + 1
      omega
    · rw [if_neg hup]
      exact ⟨m, hfs.1, hfs.2, by omega⟩

theorem relaxFold_OK (grid : SpatialGrid) (S E : Gpt) (current : PathNode)
    (closed : List Gpt) :
    ∀ (ds : List (ℤ × ℤ)) (openl : List PathNode),
      (∀ d ∈ ds, d ∈ directions) → WF S E current →
      OpenOK S E openl closed →
      OpenOK S E (ds.foldl (relaxStep grid E current closed) openl) closed := by
  intro ds
  induction ds with
  | nil => intro openl _ _ hOK; exact hOK
  | cons d ds ih =>
    intro openl hds hcur hOK
    rw [List.foldl_cons]
    exact ih _ (fun d2 hd2 => hds d2 (List.mem_cons_of_mem d hd2)) hcur
      (relaxStep_OK grid S E current closed openl d hcur
        (hds d (List.mem_cons_self d ds)) hOK)

theorem relaxFold_mono (grid : SpatialGrid) (S E : Gpt) (current : PathNode)
    (closed : List Gpt) (t : Gpt) (v : ℕ) :
    ∀ (ds : List (ℤ × ℤ)) (openl : List PathNode),
      (∀ d ∈ ds, d ∈ directions) → WF S E current →
      OpenOK S E openl closed →
      (∃ n ∈ openl, n.cell = t ∧ n.g ≤ v) →
      ∃ n' ∈ ds.foldl (relaxStep grid E current closed) openl,
        n'.cell = t ∧ n'.g ≤ v := by
  intro ds
  induction ds with
  | nil => intro openl _ _ _ hex; exact hex
  | cons d ds ih =>
    intro openl hds hcur hOK hex
    rw [List.foldl_cons]
    refine ih _ (fun d2 hd2 => hds d2 (List.mem_cons_of_mem d hd2)) hcur
      (relaxStep_OK grid S E current closed openl d hcur
        (hds d (List.mem_cons_self d ds)) hOK) ?_
    exact relaxStep_mono grid E current closed openl d hOK.2.1 t v hex

theorem relaxFold_keep (grid : SpatialGrid) (S E : Gpt) (current : PathNode)
    (closed : List Gpt) (n : PathNode)
    (hgexact : n.g = manhattanDistance S n.cell) :
    ∀ (ds : List (ℤ × ℤ)) (openl : List PathNode),
      (∀ d ∈ ds, d ∈ directions) → WF S E current →
      OpenOK S E openl closed → n ∈ openl →
      n ∈ ds.foldl (relaxStep grid E current closed) openl := by
  intro ds
  induction ds with
  | nil => intro openl _ _ _ hn; exact hn
  | cons d ds ih =>
    intro openl hds hcur hOK hn
    rw [List.foldl_cons]
    refine ih _ (fun d2 hd2 => hds d2 (List.mem_cons_of_mem d hd2)) hcur
      (relaxStep_OK grid S E current closed openl d hcur
        (hds d (List.mem_cons_self d ds)) hOK) ?_
    exact relaxStep_keep grid S E current closed openl d
      (hds d (List.mem_cons_self d ds)) hOK.2.1 hcur n hn hgexact

theorem relaxFold_reach (grid : SpatialGrid) (S E : Gpt) (current : PathNode)
    (closed : List Gpt) (d0 : ℤ × ℤ)
    (hnc : (⟨current.x + d0.1, current.y + d0.2⟩ : Gpt) ∉ closed)
    (hwalk : isWalkable grid (current.x + d0.1) (current.y + d0.2) = true) :
    ∀ (ds : List (ℤ × ℤ)) (openl : List PathNode),
      (∀ d ∈ ds, d ∈ directions) → WF S E current →
      OpenOK S E openl closed → d0 ∈ ds →
      ∃ n' ∈ ds.foldl (relaxStep grid E current closed) openl,
        n'.cell = (⟨current.x + d0.1, current.y + d0.2⟩ : Gpt) ∧
        n'.g ≤ current.g + 1 := by
  intro ds
  induction ds with
  | nil => intro openl _ _ _ hd0; exact absurd hd0 (List.not_mem_nil d0)
  | cons d ds ih =>
    intro openl hds hcur hOK hd0
    rw [List.foldl_cons]
    have hOK2 := relaxStep_OK grid S E current closed openl d hcur
      (hds d (List.mem_cons_self d ds)) hOK
    rcases List.mem_cons.1 hd0 with rfl | hd0
    · exact relaxFold_mono grid S E current closed _ _ ds _
        (fun d2 hd2 => hds d2 (List.mem_cons_of_mem d0 hd2)) hcur hOK2
        (relaxStep_establish grid E current closed openl d0 hnc hwalk)
    · exact ih _ (fun d2 hd2 => hds d2 (List.mem_cons_of_mem d hd2)) hcur
        hOK2 hd0

end Router

namespace Router

/-- No blocked cell obstructs any minimal axis-aligned route: every cell of
the closed coordinate rectangle spanned by the two cells is walkable
(these are exactly the cells lying on some minimal monotone route). -/
def rectWalkable (grid : SpatialGrid) (a b : Gpt) : Prop :=
  ∀ x y : ℤ, min a.x b.x ≤ x → x ≤ max a.x b.x →
    min a.y b.y ≤ y → y ≤ max a.y b.y → isWalkable grid x y = true

/-- The optimal-frontier invariant: while the goal cell is not closed, some
cell of the straight monotone route sits in the open list with exact
g-value, and every strictly later route cell is still unclosed. -/
def DiagInv (S E : Gpt) (openl : List PathNode) (closed : List Gpt) : Prop :=
  E ∉ closed → ∃ i, i ≤ manhattanDistance S E ∧
    (∃ n ∈ openl, n.cell = monoCell S E i ∧ n.g = i) ∧
    ∀ j, i < j → j ≤ manhattanDistance S E → monoCell S E j ∉ closed

theorem astarLoop_some_spec (grid : SpatialGrid) (S E : Gpt)
    (hrect : rectWalkable grid S E) :
    ∀ (fuel : ℕ) (openl : List PathNode) (closed : List Gpt) (gN : PathNode),
      OpenOK S E openl closed → DiagInv S E openl closed →
      astarLoop grid E fuel openl closed = some gN →
      WF S E gN ∧ gN.cell = E ∧ gN.g = manhattanDistance S E := by
  intro fuel
  induction fuel with
  | zero =>
    intro openl closed gN _ _ hrun
    exact absurd hrun (by simp [astarLoop])
  | succ fuel ih =>
    intro openl closed gN hOK hDiag hrun
    simp only [astarLoop] at hrun
    rcases hsort : sortByF openl with _ | ⟨current, rest⟩
    · rw [hsort] at hrun
      simp at hrun
    · rw [hsort] at hrun
      dsimp only at hrun
      have hperm : openl.Perm (current :: rest) := by
        have hp := sortByF_perm openl
        rw [hsort] at hp
        exact hp.symm
      have hcur_mem : current ∈ openl := hperm.mem_iff.2 (List.mem_cons_self _ _)
      have hcur_wf : WF S E current := hOK.1 current hcur_mem
      have hndCR : (current.cell :: rest.map PathNode.cell).Nodup := by
        have := (hperm.map PathNode.cell).nodup_iff.1 hOK.2.1
        simpa using this
      by_cases hgoal : (current.x == E.x && current.y == E.y) = true
      · rw [if_pos hgoal] at hrun
        have hgN : current = gN := Option.some.inj hrun
        subst hgN
        have hcell : current.cell = E := by
          have := cell_eq_of_beq current E.x E.y hgoal
          simpa using this
        have hEnc : E ∉ closed := by
          have h1 := hOK.2.2 current hcur_mem
          rw [hcell] at h1
          exact h1
        obtain ⟨i, hiD, ⟨n, hnmem, hncell, hng⟩, -⟩ := hDiag hEnc
        have hfn : n.f = manhattanDistance S E := by
          rw [wf_f S E n (hOK.1 n hnmem), wf_h S E n (hOK.1 n hnmem), hncell,
            monoCell_dist_end S E i hiD, hng]
          omega
        have hmin : current.f ≤ n.f :=
          sortByF_head_min openl current rest hsort n hnmem
        have hge := wf_g_ge S E current hcur_wf
        have hf := wf_f S E current hcur_wf
        have hh := wf_h S E current hcur_wf
        rw [hcell] at hge hh
        rw [manhattan_self] at hh
        refine ⟨hcur_wf, hcell, ?_⟩
        rw [hfn] at hmin
        omega
      · rw [if_neg hgoal] at hrun
        have hOKrest : OpenOK S E rest (closed ++ [⟨current.x, current.y⟩]) := by
          refine ⟨?_, (List.nodup_cons.1 hndCR).2, ?_⟩
          · intro n hn
            exact hOK.1 n (hperm.mem_iff.2 (List.mem_cons_of_mem _ hn))
          · intro n hn
            have h1 := hOK.2.2 n (hperm.mem_iff.2 (List.mem_cons_of_mem _ hn))
            have h2 : n.cell ≠ current.cell := by
              intro hc
              exact (List.nodup_cons.1 hndCR).1
                (hc ▸ List.mem_map.2 ⟨n, hn, rfl⟩)
            intro hmem2
            rcases List.mem_append.1 hmem2 with h | h
            · exact h1 h
            · exact h2 (by simpa using h)
        have hOK2 := relaxFold_OK grid S E current
          (closed ++ [⟨current.x, current.y⟩]) directions rest
          (fun d hd => hd) hcur_wf hOKrest
        refine ih _ _ gN hOK2 ?_ hrun
        intro hE2
        have hEc : E ∉ closed := fun h => hE2 (List.mem_append.2 (Or.inl h))
        have hEcur : E ≠ (⟨current.x, current.y⟩ : Gpt) := by
          intro h
          exact hE2 (List.mem_append.2 (Or.inr (by simp [h])))
        obtain ⟨i, hiD, ⟨n, hnmem, hncell, hng⟩, hfree⟩ := hDiag hEc
        have hfn : n.f = manhattanDistance S E := by
          rw [wf_f S E n (hOK.1 n hnmem), wf_h S E n (hOK.1 n hnmem), hncell,
            monoCell_dist_end S E i hiD, hng]
          omega
        have hmin : current.f ≤ n.f :=
          sortByF_head_min openl current rest hsort n hnmem
        have hge := wf_g_ge S E current hcur_wf
        have hf := wf_f S E current hcur_wf
        have hh := wf_h S E current hcur_wf
        by_cases hj : ∃ j, j ≤ manhattanDistance S E ∧
            current.cell = monoCell S E j
        · obtain ⟨j, hjD, hjcell⟩ := hj
          have h5 : manhattanDistance S current.cell = j := by
            rw [hjcell]
            exact monoCell_dist_start S E j hjD
          have h6 : manhattanDistance current.cell E =
              manhattanDistance S E - j := by
            rw [hjcell]
            exact monoCell_dist_end S E j hjD
          have hgj : current.g = j := by
            rw [hfn] at hmin
            rw [h6] at hh
            rw [h5] at hge
            omega
          have hjltD : j < manhattanDistance S E := by
            rcases Nat.lt_or_ge j (manhattanDistance S E) with h | h
            · exact h
            · exfalso
              have hjeq : j = manhattanDistance S E := by omega
              have hcurE : current.cell = E := by
                rw [hjcell, hjeq, monoCell_last]
              exact hgoal (beq_of_cell_eq current E.x E.y (by simpa using hcurE))
          by_cases hij : j < i
          · refine ⟨i, hiD, ⟨n, ?_, hncell, hng⟩, ?_⟩
            · have hnne : n ≠ current := by
                intro hc
                apply Nat.ne_of_lt hij
                refine monoCell_inj S E j i hjD hiD ?_
                rw [← hjcell, ← hc, hncell]
              have hnrest : n ∈ rest := by
                rcases List.mem_cons.1 (hperm.mem_iff.1 hnmem) with hc | hc
                · exact absurd hc hnne
                · exact hc
              exact relaxFold_keep grid S E current
                (closed ++ [⟨current.x, current.y⟩]) n
                (by rw [hncell, monoCell_dist_start S E i hiD, hng])
                directions rest (fun d hd => hd) hcur_wf hOKrest hnrest
            · intro k hik hkD hkmem
              rcases List.mem_append.1 hkmem with h | h
              · exact hfree k hik hkD h
              · have hke : monoCell S E k = current.cell := by simpa using h
                have hkj : k = j := monoCell_inj S E k j hkD hjD
                  (by rw [hke, hjcell])
                omega
          · have hij2 : i ≤ j := by omega
            have hj1D : j + 1 ≤ manhattanDistance S E := hjltD
            have hnextnc : monoCell S E (j + 1) ∉ closed :=
              hfree (j + 1) (by omega) hj1D
            have hnextnc2 : monoCell S E (j + 1) ∉
                closed ++ [⟨current.x, current.y⟩] := by
              intro hmem
              rcases List.mem_append.1 hmem with h | h
              · exact hnextnc h
              · have hke : monoCell S E (j + 1) = current.cell := by simpa using h
                have := monoCell_inj S E (j + 1) j hj1D hjD (by rw [hke, hjcell])
                omega
            have hadj : manhattanDistance current.cell (monoCell S E (j + 1)) = 1 := by
              rw [hjcell]
              exact monoCell_adj S E j hjltD
            obtain ⟨d0, hd0, hd0eq⟩ :=
              adj_exists_dir current.cell (monoCell S E (j + 1)) hadj
            have hd0eq2 : monoCell S E (j + 1) =
                (⟨current.x + d0.1, current.y + d0.2⟩ : Gpt) := hd0eq
            have hwalknext : isWalkable grid (current.x + d0.1)
                (current.y + d0.2) = true := by
              obtain ⟨r1, r2, r3, r4⟩ := monoCell_in_rect S E (j + 1) hj1D
              rw [hd0eq2] at r1 r2 r3 r4
              exact hrect _ _ r1 r2 r3 r4
            obtain ⟨n', hn'mem, hn'cell, hn'g⟩ :=
              relaxFold_reach grid S E current
                (closed ++ [⟨current.x, current.y⟩]) d0
                (by rw [← hd0eq2]; exact hnextnc2) hwalknext
                directions rest (fun d hd => hd) hcur_wf hOKrest hd0
            refine ⟨j + 1, hj1D, ⟨n', hn'mem, ?_, ?_⟩, ?_⟩
            · rw [hn'cell, hd0eq2]
            · have hwf' := hOK2.1 n' hn'mem
              have hge' := wf_g_ge S E n' hwf'
              have hcell' : manhattanDistance S n'.cell = j + 1 := by
                rw [hn'cell, ← hd0eq2]
                exact monoCell_dist_start S E (j + 1) hj1D
              rw [hcell'] at hge'
              rw [hgj] at hn'g
              omega
            · intro k hk hkD hkmem
              rcases List.mem_append.1 hkmem with h | h
              · exact hfree k (by omega) hkD h
              · have hke : monoCell S E k = current.cell := by simpa using h
                have := monoCell_inj S E k j hkD hjD (by rw [hke, hjcell])
                omega
        · refine ⟨i, hiD, ⟨n, ?_, hncell, hng⟩, ?_⟩
          · have hnne : n ≠ current := by
              intro hc
              exact hj ⟨i, hiD, by rw [← hc, hncell]⟩
            have hnrest : n ∈ rest := by
              rcases List.mem_cons.1 (hperm.mem_iff.1 hnmem) with hc | hc
              · exact absurd hc hnne
              · exact hc
            exact relaxFold_keep grid S E current
              (closed ++ [⟨current.x, current.y⟩]) n
              (by rw [hncell, monoCell_dist_start S E i hiD, hng])
              directions rest (fun d hd => hd) hcur_wf hOKrest hnrest
          · intro k hik hkD hkmem
            rcases List.mem_append.1 hkmem with h | h
            · exact hfree k hik hkD h
            · have hke : monoCell S E k = current.cell := by simpa using h
              exact hj ⟨k, hkD, hke.symm⟩

end Router

namespace Router

/-- The cost of a drawable path measured in grid steps: the sum over
consecutive waypoints of the Manhattan distance between their grid
cells. -/
def pathGridCost : List Pt → ℕ
  | p :: q :: rest =>
    manhattanDistance (worldToGrid p) (worldToGrid q) + pathGridCost (q :: rest)
  | _ => 0

theorem pathGridCost_eq_gcost :
    ∀ l : List Pt, pathGridCost l = gcost (l.map worldToGrid)
  | [] => rfl
  | [_] => rfl
  | p :: q :: rest => by
    show manhattanDistance (worldToGrid p) (worldToGrid q) +
        pathGridCost (q :: rest) = _
    rw [pathGridCost_eq_gcost (q :: rest)]
    rfl

theorem map_set {α β : Type} (f : α → β) :
    ∀ (l : List α) (i : ℕ) (a : α), (l.set i a).map f = (l.map f).set i (f a)
  | [], _, _ => rfl
  | _ :: _, 0, _ => rfl
  | x :: l, i + 1, a => by
    show f x :: (l.set i a).map f = f x :: (l.map f).set i (f a)
    rw [map_set f l i a]

theorem set_head_self {α : Type} (l : List α) (a : α) (h : l.head? = some a) :
    l.set 0 a = l := by
  cases l with
  | nil => rfl
  | cons x xs =>
    have hx : x = a := by simpa using h
    rw [hx]
    rfl

theorem set_last_self {α : Type} :
    ∀ (l : List α) (a : α), l.getLast? = some a → l.set (l.length - 1) a = l
  | [], _ => by intro h; simp at h
  | [x], a => by
    intro h
    have hx : x = a := by simpa using h
    rw [hx]
    rfl
  | x :: y :: l, a => by
    intro h
    have h2 : (y :: l).getLast? = some a := by simpa using h
    have ih := set_last_self (y :: l) a h2
    have hlen : (x :: y :: l).length - 1 = ((y :: l).length - 1) + 1 := by
      simp only [List.length_cons]
      omega
    rw [hlen]
    show x :: (y :: l).set ((y :: l).length - 1) a = x :: y :: l
    rw [ih]

end Router

namespace Router

/-- C4: when no blocked cell obstructs any minimal axis-aligned route
between the start and end grid cells (every cell of their spanning
rectangle — the endpoints included — is walkable), the path returned by
`findOrthogonalPath` has cost in grid steps equal to the Manhattan
distance between the start and end grid cells: on A* success the
reconstructed path is a minimal grid path, and a direct-segment fallback
spans exactly the same grid cost. -/
theorem astar_cost_manhattan (start endP : Pt) (grid : SpatialGrid)
    (hrect : rectWalkable grid (worldToGrid start) (worldToGrid endP)) :
    pathGridCost (findOrthogonalPath start endP grid) =
      manhattanDistance (worldToGrid start) (worldToGrid endP) := by
  unfold findOrthogonalPath
  by_cases hb : (!(isWalkable grid (worldToGrid start).x (worldToGrid start).y) ||
      !(isWalkable grid (worldToGrid endP).x (worldToGrid endP).y)) = true
  · rw [if_pos hb]
    simp [pathGridCost]
  · rw [if_neg hb]
    dsimp only
    rcases hrun : astarLoop grid (worldToGrid endP) maxIterations
        [PathNode.mk (worldToGrid start).x (worldToGrid start).y 0
          (manhattanDistance (worldToGrid start) (worldToGrid endP))
          (manhattanDistance (worldToGrid start) (worldToGrid endP)) none] []
      with _ | gN
    · simp [pathGridCost]
    · dsimp only
      have hOK0 : OpenOK (worldToGrid start) (worldToGrid endP)
          [PathNode.mk (worldToGrid start).x (worldToGrid start).y 0
            (manhattanDistance (worldToGrid start) (worldToGrid endP))
            (manhattanDistance (worldToGrid start) (worldToGrid endP)) none] [] := by
        refine ⟨?_, by simp, by simp⟩
        intro n hn
        have hn2 : n = PathNode.mk (worldToGrid start).x (worldToGrid start).y 0
            (manhattanDistance (worldToGrid start) (worldToGrid endP))
            (manhattanDistance (worldToGrid start) (worldToGrid endP)) none := by
          simpa using hn
        subst hn2
        exact ⟨rfl, (Nat.zero_add _).symm, rfl, rfl, rfl⟩
      have hDiag0 : DiagInv (worldToGrid start) (worldToGrid endP)
          [PathNode.mk (worldToGrid start).x (worldToGrid start).y 0
            (manhattanDistance (worldToGrid start) (worldToGrid endP))
            (manhattanDistance (worldToGrid start) (worldToGrid endP)) none] [] := by
        intro _
        refine ⟨0, Nat.zero_le _,
          ⟨PathNode.mk (worldToGrid start).x (worldToGrid start).y 0
            (manhattanDistance (worldToGrid start) (worldToGrid endP))
            (manhattanDistance (worldToGrid start) (worldToGrid endP)) none,
            by simp, ?_, rfl⟩, ?_⟩
        · rw [monoCell_zero]
          exact gpt_eq _ _ rfl rfl
        · intro j _ _ hj
          exact absurd hj (List.not_mem_nil _)
      obtain ⟨hwf, hcellE, hgD⟩ := astarLoop_some_spec grid (worldToGrid start)
        (worldToGrid endP) hrect maxIterations _ _ gN hOK0 hDiag0 hrun
      obtain ⟨hhead, hlast, hcost⟩ := trail_spec (worldToGrid start)
        (worldToGrid endP) gN hwf
      have htne : gN.trail ≠ [] := by
        intro h
        rw [h] at hhead
        exact Option.noConfusion hhead
      unfold replaceEnds
      have hlen : (gN.trail.map gridToWorld).length > 0 := by
        rw [List.length_map]
        exact List.length_pos.2 htne
      rw [if_pos hlen, pathGridCost_eq_gcost, map_set, map_set]
      have hroundtrip : (gN.trail.map gridToWorld).map worldToGrid = gN.trail := by
        rw [List.map_map]
        have hcomp : (worldToGrid ∘ gridToWorld) = id :=
          funext worldToGrid_gridToWorld
        rw [hcomp, List.map_id]
      rw [hroundtrip, List.length_map,
        set_head_self gN.trail (worldToGrid start) hhead,
        set_last_self gN.trail (worldToGrid endP) (by rw [hlast, hcellE]),
        hcost, hgD]

/-- Obstacle-free grid for the C4 witness. -/
def emptyGrid : SpatialGrid := ⟨[]⟩

/-- Witness for C4: from world point `(15, 15)` (cell `(0,0)`) to
`(75, 15)` (cell `(2,0)`) over an empty grid, the returned path costs
exactly the Manhattan distance 2. -/
theorem astar_cost_manhattan_witness :
    pathGridCost (findOrthogonalPath ⟨15, 15⟩ ⟨75, 15⟩ emptyGrid) =
      manhattanDistance (worldToGrid ⟨15, 15⟩) (worldToGrid ⟨75, 15⟩) ∧
    manhattanDistance (worldToGrid ⟨15, 15⟩) (worldToGrid ⟨75, 15⟩) = 2 := by
  constructor
  · exact astar_cost_manhattan ⟨15, 15⟩ ⟨75, 15⟩ emptyGrid
      (fun x y _ _ _ _ => rfl)
  · have h1 : worldToGrid (⟨15, 15⟩ : Pt) = (⟨0, 0⟩ : Gpt) := by
      unfold worldToGrid GRID_CELL_SIZE
      refine gpt_eq _ _ ?_ ?_ <;> norm_num
    have h2 : worldToGrid (⟨75, 15⟩ : Pt) = (⟨2, 0⟩ : Gpt) := by
      unfold worldToGrid GRID_CELL_SIZE
      refine gpt_eq _ _ ?_ ?_ <;> norm_num
    rw [h1, h2]
    decide

end Router
